import Mathlib

/-!
Verification of the transcript-scanner component
(`src/analytics/transcript-scanner.ts`).

Strings are modelled as lists of characters (`Str`).  The filesystem and
the Node.js I/O layer are modelled by an explicit record of oracles
(`FS`): `existsSync` answers the existence probes of the path decoder,
`rootListing` is the result of `readdir(projectsDir, {withFileTypes})`,
`listDir` the result of `readdir` on a project directory's full path and
`statFile` the result of `stat` on a file's full path.  Fallible calls
return `Except NodeError` values; a thrown Node error is modelled by the
`NodeError` structure (its `code` field is what the catch clause
inspects), and "propagated unmodified" means the very same `NodeError`
value is returned.  `path.join a b` is modelled as `a ++ '/' :: b`.
-/

/-- Strings of the implementation, modelled as lists of characters. -/
abbrev Str := List Char

/-- A Node.js `ErrnoException`: the scanner's catch clause inspects its
`code` property; the rest of the error travels along unmodified. -/
structure NodeError where
  code : Str
  message : Str
deriving DecidableEq

/-- One entry of `readdir(..., { withFileTypes: true })`: a name together
with the answer of `entry.isDirectory()`. -/
structure DirEntry where
  name : Str
  isDir : Bool
deriving DecidableEq

/-- The fields of `fs.Stats` that the scanner reads: `size` and `mtime`
(the modification time, as a point on the `Date` timeline). -/
structure FileStat where
  size : Nat
  mtime : Int
deriving DecidableEq

/-- The `TranscriptFile` interface of the source. -/
structure TranscriptFile where
  projectPath : Str
  projectDir : Str
  sessionId : Str
  filePath : Str
  fileSize : Nat
  modifiedTime : Int
deriving DecidableEq

/-- The `ScanResult` interface of the source. -/
structure ScanResult where
  transcripts : List TranscriptFile
  totalSize : Nat
  projectCount : Nat
deriving DecidableEq

/-- The `ScanOptions` interface of the source; both filters optional. -/
structure ScanOptions where
  projectFilter : Option Str := none
  minDate : Option Int := none

/-- The two mutable accumulators of `scanTranscripts`: the `transcripts`
array and the `projectDirs` set (a JS `Set`, kept as its insertion-ordered
list of distinct elements). -/
structure ScanState where
  transcripts : List TranscriptFile
  projectDirs : List Str
deriving DecidableEq

/-- The filesystem / OS environment the scanner runs against. -/
structure FS where
  home : Str
  existsSync : Str → Bool
  rootListing : Except NodeError (List DirEntry)
  listDir : Str → Except NodeError (List Str)
  statFile : Str → Except NodeError FileStat

/-- JS `s.split(sep)` for a single-character separator. -/
def splitOnChar (sep : Char) : List Char → List (List Char)
  | [] => [[]]
  | c :: cs =>
    let r := splitOnChar sep cs
    if c = sep then [] :: r
    else
      match r with
      | [] => [[c]]
      | g :: gs => (c :: g) :: gs

/-- JS `parts.join(sep)` for a single-character separator. -/
def intercalateChar (sep : Char) : List (List Char) → List Char
  | [] => []
  | [g] => g
  | g :: gs => g ++ sep :: intercalateChar sep gs

/-- JS `s.replace(pat, '')` with a plain-string pattern: removes the
first occurrence of `pat` from `s` (and leaves `s` unchanged when `pat`
does not occur). -/
def replaceFirst (pat : Str) : Str → Str
  | [] => []
  | c :: cs =>
    if pat.isPrefixOf (c :: cs) then (c :: cs).drop pat.length
    else c :: replaceFirst pat cs

/-- A character of the class `[a-f0-9]` of `UUID_REGEX`. -/
def isHexDigit (c : Char) : Bool :=
  ('a' ≤ c && c ≤ 'f') || ('0' ≤ c && c ≤ '9')

/-- The test of `UUID_REGEX`
(`^[a-f0-9]{8}-[a-f0-9]{4}-[a-f0-9]{4}-[a-f0-9]{4}-[a-f0-9]{12}$`): the
string splits on `'-'` into exactly five all-hex groups of lengths
8, 4, 4, 4 and 12 (the hex class contains no dash, so the regex matches
exactly the strings of this split shape). -/
def uuidMatch (s : Str) : Bool :=
  match splitOnChar '-' s with
  | [g1, g2, g3, g4, g5] =>
    g1.length == 8 && g2.length == 4 && g3.length == 4 && g4.length == 4 &&
      g5.length == 12 &&
      (g1 ++ g2 ++ g3 ++ g4 ++ g5).all isHexDigit
  | _ => false

/-- The line-terminator characters that the JavaScript regex wildcard
`.` does not match. -/
def isLineTerm (c : Char) : Bool :=
  c = '\n' || c = '\r' || c = '\u2028' || c = '\u2029'

/-- Abstract form of the regular expressions `new RegExp` builds from
the converted glob: assertions `^`/`$`, the wildcard `.`, literal
characters, character classes, sequencing, alternation and star.  The
quantifiers `+`, `?` and braced repetitions are desugared onto these
during parsing, and groups only bracket, which `test` cannot observe. -/
inductive JSRegex : Type where
  | fail : JSRegex
  | eps : JSRegex
  | bol : JSRegex
  | eol : JSRegex
  | ch : Char → JSRegex
  | dot : JSRegex
  | cls : Bool → List (Char × Char) → JSRegex
  | seq : JSRegex → JSRegex → JSRegex
  | alt : JSRegex → JSRegex → JSRegex
  | star : JSRegex → JSRegex
deriving DecidableEq

/-- Membership of a character in the ranges of a character class. -/
def inRanges (c : Char) (rs : List (Char × Char)) : Bool :=
  rs.any fun p => p.1 ≤ c && c ≤ p.2

/-- The ranges of the `\d` escape class. -/
def digitRanges : List (Char × Char) := [('0', '9')]

/-- The ranges of the `\w` escape class. -/
def wordRanges : List (Char × Char) :=
  [('0', '9'), ('A', 'Z'), ('_', '_'), ('a', 'z')]

/-- The ranges of the `\s` escape class. -/
def spaceRanges : List (Char × Char) :=
  [('\x09', '\x0d'), (' ', ' '), ('\u00a0', '\u00a0'), ('\u1680', '\u1680'),
   ('\u2000', '\u200a'), ('\u2028', '\u2029'), ('\u202f', '\u202f'),
   ('\u205f', '\u205f'), ('\u3000', '\u3000'), ('\ufeff', '\ufeff')]

/-- An escape sequence after `\` outside a character class: control
escapes, the `\d`/`\D`/`\w`/`\W`/`\s`/`\S` classes and identity
escapes of punctuation.  The remaining letter escapes (word boundaries,
backreferences, `\x`/`\u`/`\p`…) lie outside the modelled fragment
and are rejected. -/
def parseEscape (s : Str) : Option (JSRegex × Str) :=
  match s with
  | [] => none
  | c :: rest =>
    if c = 'n' then some (.ch '\n', rest)
    else if c = 'r' then some (.ch '\r', rest)
    else if c = 't' then some (.ch '\t', rest)
    else if c = 'f' then some (.ch '\x0c', rest)
    else if c = 'v' then some (.ch '\x0b', rest)
    else if c = '0' then some (.ch '\x00', rest)
    else if c = 'd' then some (.cls false digitRanges, rest)
    else if c = 'D' then some (.cls true digitRanges, rest)
    else if c = 'w' then some (.cls false wordRanges, rest)
    else if c = 'W' then some (.cls true wordRanges, rest)
    else if c = 's' then some (.cls false spaceRanges, rest)
    else if c = 'S' then some (.cls true spaceRanges, rest)
    else if c.isAlphanum then none
    else some (.ch c, rest)

/-- One atom inside a character class: a single character (possibly
escaped) or an embedded positive escape class. -/
def parseClassAtom (s : Str) : Option ((Char ⊕ List (Char × Char)) × Str) :=
  match s with
  | [] => none
  | '\\' :: rest =>
    match rest with
    | [] => none
    | c :: rest2 =>
      if c = 'n' then some (Sum.inl '\n', rest2)
      else if c = 'r' then some (Sum.inl '\r', rest2)
      else if c = 't' then some (Sum.inl '\t', rest2)
      else if c = 'f' then some (Sum.inl '\x0c', rest2)
      else if c = 'v' then some (Sum.inl '\x0b', rest2)
      else if c = '0' then some (Sum.inl '\x00', rest2)
      else if c = 'd' then some (Sum.inr digitRanges, rest2)
      else if c = 'w' then some (Sum.inr wordRanges, rest2)
      else if c = 's' then some (Sum.inr spaceRanges, rest2)
      else if c.isAlphanum then none
      else some (Sum.inl c, rest2)
  | c :: rest => if c = ']' then none else some (Sum.inl c, rest)

/-- The items of a character class, up to the closing bracket. -/
def parseClassItems (fuel : Nat) (s : Str) (acc : List (Char × Char)) :
    Option (List (Char × Char) × Str) :=
  match fuel with
  | 0 => none
  | fuel + 1 =>
    match s with
    | ']' :: rest => some (acc, rest)
    | _ =>
      match parseClassAtom s with
      | none => none
      | some (Sum.inr rs, rest) => parseClassItems fuel rest (acc ++ rs)
      | some (Sum.inl c1, rest) =>
        match rest with
        | '-' :: ']' :: rest2 => some (acc ++ [(c1, c1), ('-', '-')], rest2)
        | '-' :: rest1 =>
          match parseClassAtom rest1 with
          | some (Sum.inl c2, rest2) =>
            if c1 ≤ c2 then parseClassItems fuel rest2 (acc ++ [(c1, c2)])
            else none
          | _ => none
        | _ => parseClassItems fuel rest (acc ++ [(c1, c1)])

/-- Accumulate a run of decimal digits into a number. -/
def parseDigitsAux : Str → Nat → Nat × Str
  | [], n => (n, [])
  | c :: rest, n =>
    if c.isDigit then parseDigitsAux rest (n * 10 + (c.toNat - '0'.toNat))
    else (n, c :: rest)

/-- A non-empty run of decimal digits. -/
def parseDigits (s : Str) : Option (Nat × Str) :=
  match s with
  | [] => none
  | c :: _ => if c.isDigit then some (parseDigitsAux s 0) else none

/-- The body of a braced repetition after the opening brace — `n}`,
`n,}` or `n,m}` — and `none` when the braces do not form one (in which
case the brace is a literal). -/
def parseBraced (s : Str) : Option (Nat × Option (Option Nat) × Str) :=
  match parseDigits s with
  | none => none
  | some (n, rest) =>
    match rest with
    | '}' :: rest2 => some (n, none, rest2)
    | ',' :: '}' :: rest2 => some (n, some none, rest2)
    | ',' :: rest1 =>
      match parseDigits rest1 with
      | none => none
      | some (m, rest2) =>
        match rest2 with
        | '}' :: rest3 => some (n, some (some m), rest3)
        | _ => none
    | _ => none

/-- A regex repeated exactly `n` times. -/
def repExact (a : JSRegex) : Nat → JSRegex
  | 0 => .eps
  | n + 1 => .seq a (repExact a n)

/-- Skip the laziness marker after a quantifier; laziness cannot change
whether `test` succeeds. -/
def skipLazy : Str → Str
  | [] => []
  | c :: rest => if c = '?' then rest else c :: rest

/-- Does a quantifier begin here — `*`, `+`, `?` or a well-formed
braced repetition? -/
def quantStarts (s : Str) : Bool :=
  match s with
  | [] => false
  | c :: rest =>
    if c = '*' || c = '+' || c = '?' then true
    else if c = '{' then (parseBraced rest).isSome
    else false

/-- Apply an optional quantifier to a just-parsed atom.  Fails only on
a braced repetition whose lower bound exceeds its upper bound (a
SyntaxError); a brace that is not a repetition is left for the next
atom, as a literal. -/
def applyQuant (a : JSRegex) (s : Str) : Option (JSRegex × Str) :=
  match s with
  | [] => some (a, [])
  | c :: rest =>
    if c = '*' then some (.star a, skipLazy rest)
    else if c = '+' then some (.seq a (.star a), skipLazy rest)
    else if c = '?' then some (.alt .eps a, skipLazy rest)
    else if c = '{' then
      match parseBraced rest with
      | none => some (a, '{' :: rest)
      | some (n, bound, rest2) =>
        match bound with
        | none => some (repExact a n, skipLazy rest2)
        | some none => some (.seq (repExact a n) (.star a), skipLazy rest2)
        | some (some m) =>
          if n ≤ m then
            some (.seq (repExact a n) (repExact (.alt .eps a) (m - n)), skipLazy rest2)
          else none
    else some (a, c :: rest)

/-- A non-group atom: an escape, the wildcard, a character class or a
literal character.  A quantifier with nothing before it is the
"nothing to repeat" SyntaxError. -/
def parseAtomSimple (s : Str) : Option (JSRegex × Str) :=
  match s with
  | [] => none
  | c :: rest =>
    if c = '\\' then parseEscape rest
    else if c = '.' then some (.dot, rest)
    else if c = '[' then
      match rest with
      | '^' :: rest2 =>
        (parseClassItems (rest2.length + 1) rest2 []).map fun pr => (.cls true pr.1, pr.2)
      | _ =>
        (parseClassItems (rest.length + 1) rest []).map fun pr => (.cls false pr.1, pr.2)
    else if c = '*' || c = '+' || c = '?' then none
    else if c = '{' then
      if (parseBraced rest).isSome then none else some (.ch '{', rest)
    else some (.ch c, rest)

/-- Fold a list of terms into their sequence. -/
def foldTerms (ts : List JSRegex) : JSRegex :=
  ts.foldr .seq .eps

/-- Fold a non-empty list of alternatives into their alternation. -/
def altList : List JSRegex → JSRegex
  | [] => .fail
  | [r] => r
  | r :: rs => .alt r (altList rs)

/-- Close the current disjunction from its finished alternatives and
the terms of the last one. -/
def finishDisj (terms : List JSRegex) (alts : List JSRegex) : JSRegex :=
  altList (alts ++ [foldTerms terms])

/-- Disambiguate an opening parenthesis: a plain or a non-capturing
group opens a group (`some` of the rest), any other special group —
lookarounds, named groups — is outside the modelled fragment. -/
def parseGroupOpen (rest : Str) : Option Str :=
  match rest with
  | '?' :: ':' :: r2 => some r2
  | '?' :: _ => none
  | _ => some rest

/-- Recursive-descent loop over the regex source, one consumed prefix
per step.  `terms` are the terms of the current alternative, `alts` the
finished alternatives of the current disjunction and `stack` the
suspended contexts of the open groups.  `none` models the SyntaxError
thrown by `new RegExp` (unmatched bracket, nothing to repeat, invalid
repetition range, or a construct outside the modelled fragment:
lookarounds, named groups and the letter escapes listed at
`parseEscape`). -/
def parseLoop : Nat → Str → List JSRegex → List JSRegex →
    List (List JSRegex × List JSRegex) → Option JSRegex
  | 0, _, _, _, _ => none
  | fuel + 1, s, terms, alts, stack =>
    match s with
    | [] =>
      match stack with
      | [] => some (finishDisj terms alts)
      | _ => none
    | c :: rest =>
      if c = '|' then parseLoop fuel rest [] (alts ++ [foldTerms terms]) stack
      else if c = ')' then
        match stack with
        | [] => none
        | (pt, pa) :: stk =>
          match applyQuant (finishDisj terms alts) rest with
          | none => none
          | some (g, rest2) => parseLoop fuel rest2 (pt ++ [g]) pa stk
      else if c = '(' then
        match parseGroupOpen rest with
        | none => none
        | some r2 => parseLoop fuel r2 [] [] ((terms, alts) :: stack)
      else if c = '^' then
        if quantStarts rest then none
        else parseLoop fuel rest (terms ++ [.bol]) alts stack
      else if c = '$' then
        if quantStarts rest then none
        else parseLoop fuel rest (terms ++ [.eol]) alts stack
      else
        match parseAtomSimple (c :: rest) with
        | none => none
        | some (a, rest1) =>
          match applyQuant a rest1 with
          | none => none
          | some (a2, rest2) => parseLoop fuel rest2 (terms ++ [a2]) alts stack

/-- `new RegExp(source)`: parse the whole source, `none` modelling the
thrown SyntaxError. -/
def parseRegex (s : Str) : Option JSRegex :=
  parseLoop (s.length + 1) s [] [] []

/-- Can `r` match the empty string at a position that is the start of
the tested string iff `atStart` and its end iff `atEnd`?  This is where
the assertions `^` and `$` are decided. -/
def nullAt (atStart atEnd : Bool) : JSRegex → Bool
  | .fail => false
  | .eps => true
  | .bol => atStart
  | .eol => atEnd
  | .ch _ => false
  | .dot => false
  | .cls _ _ => false
  | .seq a b => nullAt atStart atEnd a && nullAt atStart atEnd b
  | .alt a b => nullAt atStart atEnd a || nullAt atStart atEnd b
  | .star _ => true

/-- Brzozowski derivative by one character, taken at a position that is
the start of the tested string iff `atStart` (and never its end, since
a character is about to be consumed there). -/
def derivAt (atStart : Bool) : JSRegex → Char → JSRegex
  | .fail, _ => .fail
  | .eps, _ => .fail
  | .bol, _ => .fail
  | .eol, _ => .fail
  | .ch c, d => if c = d then .eps else .fail
  | .dot, d => if isLineTerm d then .fail else .eps
  | .cls neg rs, d => if inRanges d rs != neg then .eps else .fail
  | .seq a b, d =>
    if nullAt atStart false a then .alt (.seq (derivAt atStart a d) b) (derivAt atStart b d)
    else .seq (derivAt atStart a d) b
  | .alt a b, d => .alt (derivAt atStart a d) (derivAt atStart b d)
  | .star a, d => .seq (derivAt atStart a d) (.star a)

/-- Run the derivative matcher: does `r` match exactly `v`, under the
positional promises `atStart` (v begins at the start of the tested
string) and `atEnd` (v ends at its end)? -/
def rxRun (r : JSRegex) (v : Str) (atStart atEnd : Bool) : Bool :=
  match v with
  | [] => nullAt atStart atEnd r
  | c :: cs => rxRun (derivAt atStart r c) cs false atEnd

/-- All ways of splitting a string into a prefix and a suffix. -/
def splits : Str → List (Str × Str)
  | [] => [([], [])]
  | c :: cs => ([], c :: cs) :: (splits cs).map fun p => (c :: p.1, p.2)

/-- `regex.test(path)`: some substring of the path is matched, the
assertions seeing the true boundary positions. -/
def reTest (r : JSRegex) (s : Str) : Bool :=
  (splits s).any fun p =>
    (splits p.2).any fun q => rxRun r q.1 p.1.isEmpty q.2.isEmpty

/-- The first conversion pass of `matchesPattern`: escape every dot. -/
def escapeDots (s : Str) : Str :=
  s.flatMap fun c => if c = '.' then ['\\', '.'] else [c]

/-- The second conversion pass: rewrite every `*` to `.*`. -/
def expandStars (s : Str) : Str :=
  s.flatMap fun c => if c = '*' then ['.', '*'] else [c]

/-- The third conversion pass: rewrite every `?` to `.`. -/
def expandMarks (s : Str) : Str :=
  s.flatMap fun c => if c = '?' then ['.'] else [c]

/-- The regex source `matchesPattern` builds from the glob (before the
outer anchors): dots escaped, then `*` to `.*`, then `?` to `.`; every
other character, regex metacharacters included, passes through
untouched. -/
def regexSource (pattern : Str) : Str :=
  expandMarks (expandStars (escapeDots pattern))

/-- The SyntaxError thrown by `new RegExp` on an invalid pattern.  It is
not an ErrnoException and carries no `code` property; since the catch
clause of the scanner only compares the code against `'ENOENT'`, the
model gives it an empty code, which compares unequal exactly as the
absent property does. -/
def invalidRegexError : NodeError :=
  ⟨[], "Invalid regular expression".toList⟩

/-- The `matchesPattern` helper of the source.  `if (!pattern) return
true` is JS truthiness: an absent and the empty-string pattern accept
every path.  Otherwise the glob is converted by the three passes of
`regexSource`, anchored, compiled by `new RegExp` — whose failure is a
thrown SyntaxError — and run with `test`. -/
def matchesPattern (path : Str) (pattern : Option Str) : Except NodeError Bool :=
  match pattern with
  | none => .ok true
  | some p =>
    if p.isEmpty then .ok true
    else
      match parseRegex ('^' :: regexSource p ++ ['$']) with
      | none => .error invalidRegexError
      | some r => .ok (reTest r path)

/-- The glob interpretation in the words of the specification and of
the claims: `*` matches any character sequence, `?` any single
character, every other character — dots and regex metacharacters
included — stands for itself, and the match is anchored to the whole
path.  This is the specification-side matcher the code's regex pipeline
is compared against. -/
def specGlobMatch : Str → Str → Bool
  | [], s => s.isEmpty
  | c :: ps, s =>
    if c = '*' then (s.tails).any fun t => specGlobMatch ps t
    else if c = '?' then
      match s with
      | [] => false
      | _ :: s1 => specGlobMatch ps s1
    else
      match s with
      | [] => false
      | d :: s1 => c == d && specGlobMatch ps s1

/-- Globs containing none of the regex metacharacters that the glob
conversion leaves unescaped. -/
def cleanGlob (p : Str) : Bool :=
  p.all fun c => !(c = '(' || c = ')' || c = '[' || c = ']' || c = '{' ||
    c = '}' || c = '+' || c = '|' || c = '^' || c = '$' || c = '\\')

/-- Paths without line-terminator characters (on which the JS wildcard
`.` and "any character" agree). -/
def noLineTerm (s : Str) : Bool :=
  s.all fun c => !isLineTerm c

/-- The regex term a single clean glob character is converted and then
parsed to. -/
def termOf (c : Char) : JSRegex :=
  if c = '*' then .star .dot else if c = '?' then .dot else .ch c

/-- The abstract regex the whole converted glob parses to. -/
def astOf (p : Str) : JSRegex :=
  foldTerms (.bol :: p.map termOf ++ [.eol])

/-- What the three conversion passes make of one glob character. -/
def charExp (c : Char) : Str :=
  if c = '.' then ['\\', '.']
  else if c = '*' then ['.', '*']
  else if c = '?' then ['.']
  else [c]

/-- Exactly `n` chunks, each non-empty and in `L`; the start flag holds
only at the first chunk, the end flag only after the last one. -/
def starIter (L : Bool → Bool → Str → Prop) (be : Bool) : Bool → Nat → Str → Prop
  | _, 0, v => v = []
  | bs, n + 1, v => ∃ v1 v2, v1 ≠ [] ∧ v = v1 ++ v2 ∧
      L bs (be && v2.isEmpty) v1 ∧ starIter L be false n v2

/-- Denotational semantics of the modelled regexes: `RXLang r bs be v`
says that `r` matches exactly `v`, where `bs` records that `v` begins
at the very start of the tested string and `be` that it ends at its
very end — the positional information the assertions `^` and `$`
consult. -/
def RXLang : JSRegex → Bool → Bool → Str → Prop
  | .fail, _, _, _ => False
  | .eps, _, _, v => v = []
  | .bol, bs, _, v => v = [] ∧ bs = true
  | .eol, _, be, v => v = [] ∧ be = true
  | .ch c, _, _, v => v = [c]
  | .dot, _, _, v => ∃ c, v = [c] ∧ isLineTerm c = false
  | .cls neg rs, _, _, v => ∃ c, v = [c] ∧ inRanges c rs ≠ neg
  | .seq a b, bs, be, v => ∃ v1 v2, v = v1 ++ v2 ∧
      RXLang a bs (be && v2.isEmpty) v1 ∧ RXLang b (bs && v1.isEmpty) be v2
  | .alt a b, bs, be, v => RXLang a bs be v ∨ RXLang b bs be v
  | .star a, bs, be, v => ∃ n, starIter (fun x y w => RXLang a x y w) be bs n v

/-- The `simplePath` of `decodeProjectPath`: a root separator followed by
`dirName.slice(1)` with every dash replaced by a slash. -/
def simpleDecode (dirName : Str) : Str :=
  '/' :: (dirName.drop 1).map fun c => if c = '-' then '/' else c

/-- The nested `generatePaths` of `decodeProjectPath`, returning the
candidate paths in the order the source pushes them: at every segment the
"new directory" branch is explored before the "combine with the previous
component by a hyphen" branch, and the latter only when `index > 0 &&
currentPath` (JS truthiness: `currentPath` non-empty). -/
def generatePaths : List Str → Nat → Str → List Str
  | [], _, currentPath => [currentPath]
  | p :: rest, index, currentPath =>
    let newBranch := generatePaths rest (index + 1) (currentPath ++ '/' :: p)
    let mergeBranch :=
      if index > 0 ∧ currentPath ≠ [] then
        let pathParts := splitOnChar '/' currentPath
        let lastPart := pathParts.getLast?.getD []
        generatePaths rest (index + 1)
          (intercalateChar '/' pathParts.dropLast ++ '/' :: (lastPart ++ '-' :: p))
      else []
    newBranch ++ mergeBranch

/-- The `decodeProjectPath` function of the source, with the
`existsSync` probe passed explicitly. -/
def decodeProjectPath (fsExists : Str → Bool) (dirName : Str) : Str :=
  if !(['-'].isPrefixOf dirName) then dirName
  else
    let simplePath := simpleDecode dirName
    if fsExists simplePath then simplePath
    else
      let segments := splitOnChar '-' (dirName.drop 1)
      match (generatePaths segments 0 []).find? fsExists with
      | some p => p
      | none => simplePath

/-- `Set.add` of JS on the insertion-ordered list of distinct elements:
appends the element when it is not yet present. -/
def setAdd (s : List Str) (x : Str) : List Str :=
  if x ∈ s then s else s ++ [x]

/-- `join(homedir(), '.claude', 'projects')`. -/
def projectsDirOf (home : Str) : Str :=
  home ++ "/.claude/projects".toList

/-- The body of the inner `for (const fileName of projectFiles)` loop of
`scanTranscripts`, acting on the two accumulators. -/
def fileStep (fs : FS) (opts : ScanOptions)
    (projectPath projectDir fullProjectPath : Str)
    (acc : ScanState) (fileName : Str) : Except NodeError ScanState :=
  if fileName == "sessions-index.json".toList ||
      !(".jsonl".toList.isSuffixOf fileName) then .ok acc
  else
    let sessionId := replaceFirst ".jsonl".toList fileName
    if !(uuidMatch sessionId) then .ok acc
    else
      let filePath := fullProjectPath ++ '/' :: fileName
      match fs.statFile filePath with
      | .error e => .error e
      | .ok fileStats =>
        let dateSkip : Bool :=
          match opts.minDate with
          | some d => decide (fileStats.mtime < d)
          | none => false
        if dateSkip then .ok acc
        else
          .ok { transcripts := acc.transcripts ++
                  [{ projectPath := projectPath, projectDir := projectDir,
                     sessionId := sessionId, filePath := filePath,
                     fileSize := fileStats.size,
                     modifiedTime := fileStats.mtime }],
                projectDirs := setAdd acc.projectDirs projectDir }

/-- The body of the outer `for (const entry of entries)` loop of
`scanTranscripts`. -/
def dirStep (fs : FS) (opts : ScanOptions)
    (acc : ScanState) (entry : DirEntry) : Except NodeError ScanState :=
  if !entry.isDir then .ok acc
  else
    let projectDir := entry.name
    let projectPath := decodeProjectPath fs.existsSync projectDir
    match matchesPattern projectPath opts.projectFilter with
    | .error e => .error e
    | .ok matched =>
      if !matched then .ok acc
      else
        let fullProjectPath := projectsDirOf fs.home ++ '/' :: projectDir
        match fs.listDir fullProjectPath with
        | .error e => .error e
        | .ok projectFiles =>
          projectFiles.foldlM (fileStep fs opts projectPath projectDir fullProjectPath) acc

/-- The `scanTranscripts` function of the source.  The whole traversal
runs inside one `try`; the catch clause turns any caught error whose
`code` is `'ENOENT'` into the canonical empty result and re-throws every
other error unmodified. -/
def scanTranscripts (fs : FS) (opts : ScanOptions) : Except NodeError ScanResult :=
  let attempt : Except NodeError ScanState :=
    match fs.rootListing with
    | .error e => .error e
    | .ok entries => entries.foldlM (dirStep fs opts) ⟨[], []⟩
  match attempt with
  | .ok s =>
    .ok { transcripts := s.transcripts,
          totalSize := s.transcripts.foldl (fun sum t => sum + t.fileSize) 0,
          projectCount := s.projectDirs.length }
  | .error e =>
    if e.code == "ENOENT".toList then .ok { transcripts := [], totalSize := 0, projectCount := 0 }
    else .error e

/-- A filesystem on which the root listing succeeds with one project
directory whose nested listing fails with an `ENOENT` error. -/
def nestedEnoentFS : FS where
  home := "/home/testuser".toList
  existsSync := fun _ => false
  rootListing := .ok [⟨"-home-testuser-project1".toList, true⟩]
  listDir := fun _ => .error ⟨"ENOENT".toList, "no such file or directory".toList⟩
  statFile := fun _ => .ok ⟨1024, 100⟩

/-- A filesystem whose second project directory fails to list with a
permission error, after a first directory that lists fine. -/
def nestedEaccesFS : FS where
  home := "/home/testuser".toList
  existsSync := fun _ => false
  rootListing := .ok [⟨"-home-testuser-project1".toList, true⟩,
                      ⟨"-home-testuser-project2".toList, true⟩]
  listDir := fun p =>
    if p == "/home/testuser/.claude/projects/-home-testuser-project1".toList then
      .ok ["a1b2c3d4-e5f6-7890-abcd-ef1234567890.jsonl".toList]
    else .error ⟨"EACCES".toList, "permission denied".toList⟩
  statFile := fun _ => .ok ⟨1024, 100⟩

/-- The path obtained by prefixing every part with a slash and
concatenating. -/
def slashJoin (parts : List Str) : Str :=
  (parts.map fun p => '/' :: p).flatten

/-- Invariant carried by the two accumulators during a scan: the
`projectDirs` set holds each encoded name at most once, and holds exactly
the encoded names of the transcripts pushed so far. -/
def StateInv (s : ScanState) : Prop :=
  s.projectDirs.Nodup ∧
    ∀ x, x ∈ s.projectDirs ↔ x ∈ s.transcripts.map (fun t => t.projectDir)

/-- A concrete filesystem with two project directories, one valid
transcript of 1024 bytes each, plus a `sessions-index.json` and a
`readme.txt` to be skipped. -/
def demoFS : FS where
  home := "/home/testuser".toList
  existsSync := fun _ => false
  rootListing := .ok [⟨"-home-testuser-project1".toList, true⟩,
                      ⟨"-home-testuser-project2".toList, true⟩,
                      ⟨"some-file.txt".toList, false⟩]
  listDir := fun p =>
    if p == "/home/testuser/.claude/projects/-home-testuser-project1".toList then
      .ok ["a1b2c3d4-e5f6-7890-abcd-ef1234567890.jsonl".toList,
           "sessions-index.json".toList, "readme.txt".toList]
    else if p == "/home/testuser/.claude/projects/-home-testuser-project2".toList then
      .ok ["b2c3d4e5-f6a7-8901-bcde-f12345678901.jsonl".toList]
    else .error ⟨"ENOENT".toList, "no such file or directory".toList⟩
  statFile := fun _ => .ok ⟨1024, 100⟩

/-- The result of a filterless scan over `demoFS`. -/
def demoResult : ScanResult :=
  ⟨[⟨"/home/testuser/project1".toList, "-home-testuser-project1".toList,
     "a1b2c3d4-e5f6-7890-abcd-ef1234567890".toList,
     ("/home/testuser/.claude/projects/-home-testuser-project1/" ++
       "a1b2c3d4-e5f6-7890-abcd-ef1234567890.jsonl").toList, 1024, 100⟩,
    ⟨"/home/testuser/project2".toList, "-home-testuser-project2".toList,
     "b2c3d4e5-f6a7-8901-bcde-f12345678901".toList,
     ("/home/testuser/.claude/projects/-home-testuser-project2/" ++
       "b2c3d4e5-f6a7-8901-bcde-f12345678901.jsonl").toList, 1024, 100⟩],
   2048, 2⟩

/-! ### Helper lemmas -/

/-- Folding a step over `l₁ ++ l₂` in the `Except` monad continues into
`l₂` from the state the fold over `l₁` succeeded with. -/
theorem foldlM_append_ok {α β ε : Type} (f : β → α → Except ε β) :
    ∀ (l₁ : List α) (l₂ : List α) (s s₁ : β),
      l₁.foldlM f s = .ok s₁ → (l₁ ++ l₂).foldlM f s = l₂.foldlM f s₁ := by
  intro l₁
  induction l₁ with
  | nil =>
    intro l₂ s s₁ h
    have hs : (Except.ok s : Except ε β) = .ok s₁ := h
    cases hs
    rfl
  | cons a l ih =>
    intro l₂ s s₁ h
    rw [List.foldlM_cons] at h
    rw [List.cons_append, List.foldlM_cons]
    cases hfa : f s a with
    | error e =>
      rw [hfa] at h
      have hh : (Except.error e : Except ε β) = .ok s₁ := h
      cases hh
    | ok s2 =>
      rw [hfa] at h
      have h2 : List.foldlM f s2 l = .ok s₁ := h
      exact ih l₂ s2 s₁ h2

/-- A failing step in the middle of an `Except` fold makes the whole
fold fail with that very error. -/
theorem foldlM_mid_error {α β ε : Type} (f : β → α → Except ε β)
    (l₁ : List α) (a : α) (l₂ : List α) (s s₁ : β) (e : ε)
    (h₁ : l₁.foldlM f s = .ok s₁) (ha : f s₁ a = .error e) :
    (l₁ ++ a :: l₂).foldlM f s = .error e := by
  rw [foldlM_append_ok f l₁ (a :: l₂) s s₁ h₁, List.foldlM_cons, ha]
  rfl

/-! ### Claim C8: failures of the root listing -/

/-- C8: when listing the root project-storage directory fails with
`ENOENT` (the directory does not exist), the scan returns exactly the
empty `ScanResult` and raises no error; when the root listing fails for
any other reason, the call fails with that error and no result is
produced. -/
theorem root_listing_failure (fs : FS) (opts : ScanOptions) (e : NodeError)
    (hroot : fs.rootListing = .error e) :
    (e.code = "ENOENT".toList →
        scanTranscripts fs opts = .ok ⟨[], 0, 0⟩) ∧
    (e.code ≠ "ENOENT".toList →
        scanTranscripts fs opts = .error e) := by
  have key : scanTranscripts fs opts =
      (if e.code == "ENOENT".toList then .ok ⟨[], 0, 0⟩ else .error e) := by
    unfold scanTranscripts
    rw [hroot]
  constructor
  · intro hc
    rw [key, if_pos (by simp [hc])]
  · intro hc
    rw [key, if_neg]
    simp only [beq_iff_eq]
    exact hc

/-- Witness for C8: a concrete filesystem whose root listing fails with
a permission error propagates that exact error. -/
theorem root_listing_failure_witness :
    scanTranscripts
      { home := "/home/testuser".toList,
        existsSync := fun _ => false,
        rootListing := .error ⟨"EACCES".toList, "permission denied".toList⟩,
        listDir := fun _ => .ok [],
        statFile := fun _ => .ok ⟨0, 0⟩ } {} =
      .error ⟨"EACCES".toList, "permission denied".toList⟩ :=
  (root_listing_failure _ {} ⟨"EACCES".toList, "permission denied".toList⟩ rfl).2
    (by decide)

/-! ### Claim C9: names without the leading marker -/

/-- C9: an encoded name that does not begin with the marker character
`'-'` is returned unchanged by the decoder, whatever the filesystem
answers. -/
theorem decode_unencoded_identity (fsExists : Str → Bool) (dirName : Str)
    (h : ['-'].isPrefixOf dirName = false) :
    decodeProjectPath fsExists dirName = dirName := by
  unfold decodeProjectPath
  rw [h]
  simp

/-- Witness for C9 at the concrete name of the test suite. -/
theorem decode_unencoded_identity_witness :
    decodeProjectPath (fun _ => true) ("my-project".toList) = "my-project".toList :=
  decode_unencoded_identity (fun _ => true) ("my-project".toList) (by decide)

/-! ### Claim C10: the empty-string project filter -/

/-- C10: the empty-string glob is falsy in JS, so `matchesPattern`
treats it exactly like an absent filter and accepts every path, rather
than matching only the empty path. -/
theorem empty_filter_matches_all (path : Str) :
    matchesPattern path (some []) = .ok true ∧ matchesPattern path none = .ok true :=
  ⟨rfl, rfl⟩

/-! ### Claim C1: nested I/O failures -/

/-- Unfolding of `scanTranscripts` once the root listing is known to
succeed. -/
theorem scan_root_ok (fs : FS) (opts : ScanOptions) (entries : List DirEntry)
    (h : fs.rootListing = .ok entries) :
    scanTranscripts fs opts =
      match entries.foldlM (dirStep fs opts) ⟨[], []⟩ with
      | .ok s =>
        .ok ⟨s.transcripts, s.transcripts.foldl (fun sum t => sum + t.fileSize) 0,
             s.projectDirs.length⟩
      | .error e =>
        if e.code == "ENOENT".toList then .ok ⟨[], 0, 0⟩ else .error e := by
  unfold scanTranscripts
  rw [h]

/-- C1 (amended): when the processing of one project directory fails
(nested listing or stat error `e`) after the earlier directories were
processed successfully, the scan discards everything accumulated so far;
if `e.code` is not `'ENOENT'` the scan fails with exactly `e`, but a
nested `'ENOENT'` failure is swallowed by the catch clause and yields the
canonical empty result instead of an error. -/
theorem scan_nested_error_behavior (fs : FS) (opts : ScanOptions)
    (es₁ : List DirEntry) (d : DirEntry) (es₂ : List DirEntry)
    (s₁ : ScanState) (e : NodeError)
    (hroot : fs.rootListing = .ok (es₁ ++ d :: es₂))
    (hpre : es₁.foldlM (dirStep fs opts) ⟨[], []⟩ = .ok s₁)
    (hd : dirStep fs opts s₁ d = .error e) :
    (e.code ≠ "ENOENT".toList → scanTranscripts fs opts = .error e) ∧
    (e.code = "ENOENT".toList → scanTranscripts fs opts = .ok ⟨[], 0, 0⟩) := by
  have hfold : List.foldlM (dirStep fs opts) (⟨[], []⟩ : ScanState) (es₁ ++ d :: es₂) =
      .error e :=
    foldlM_mid_error (dirStep fs opts) es₁ d es₂ ⟨[], []⟩ s₁ e hpre hd
  have key : scanTranscripts fs opts =
      (if e.code == "ENOENT".toList then .ok ⟨[], 0, 0⟩ else .error e) := by
    rw [scan_root_ok fs opts _ hroot, hfold]
  constructor
  · intro hc
    rw [key, if_neg]
    simp only [beq_iff_eq]
    exact hc
  · intro hc
    rw [key, if_pos (by simp [hc])]

/-- Counterexample to C1 as stated: on `nestedEnoentFS` a nested
directory listing fails with a (nested, not root) `'ENOENT'` I/O error,
yet the scan does not propagate any error — it produces a result, the
canonical empty one. -/
theorem scan_nested_error_cex :
    scanTranscripts nestedEnoentFS {} = .ok ⟨[], 0, 0⟩ := rfl

/-- Witness for the amended C1: a nested permission error on the second
project directory aborts the scan with exactly that error, discarding the
transcript collected from the first directory. -/
theorem scan_nested_error_witness :
    scanTranscripts nestedEaccesFS {} =
      .error ⟨"EACCES".toList, "permission denied".toList⟩ :=
  (scan_nested_error_behavior nestedEaccesFS {} [⟨"-home-testuser-project1".toList, true⟩]
      ⟨"-home-testuser-project2".toList, true⟩ []
      ⟨[⟨"/home/testuser/project1".toList, "-home-testuser-project1".toList,
         "a1b2c3d4-e5f6-7890-abcd-ef1234567890".toList,
         ("/home/testuser/.claude/projects/-home-testuser-project1/" ++
           "a1b2c3d4-e5f6-7890-abcd-ef1234567890.jsonl").toList, 1024, 100⟩],
       ["-home-testuser-project1".toList]⟩
      ⟨"EACCES".toList, "permission denied".toList⟩ rfl rfl rfl).1 (by decide)

/-! ### Claim C6: the project filter -/

/-- The conversion passes leave the empty glob empty. -/
theorem regexSource_nil : regexSource [] = [] := rfl

/-- The conversion passes act characterwise. -/
theorem regexSource_cons (c : Char) (p : Str) :
    regexSource (c :: p) = charExp c ++ regexSource p := by
  unfold regexSource escapeDots expandStars expandMarks charExp
  by_cases h1 : c = '.'
  · subst h1; simp
  · by_cases h2 : c = '*'
    · subst h2; simp
    · by_cases h3 : c = '?'
      · subst h3; simp
      · simp [h1, h2, h3]

/-- The conversion never shortens the glob. -/
theorem regexSource_length (p : Str) : p.length ≤ (regexSource p).length := by
  induction p with
  | nil => simp [regexSource_nil]
  | cons c p ih =>
    rw [regexSource_cons]
    have h1 : 1 ≤ (charExp c).length := by
      unfold charExp
      by_cases h1 : c = '.'
      · simp [h1]
      · by_cases h2 : c = '*'
        · simp [h1, h2]
        · by_cases h3 : c = '?'
          · simp [h1, h2, h3]
          · simp [h1, h2, h3]
    simp only [List.length_append, List.length_cons]
    omega

/-- Unpacking cleanliness at a cons. -/
theorem cleanGlob_cons (c : Char) (p : Str) (h : cleanGlob (c :: p) = true) :
    c ≠ '(' ∧ c ≠ ')' ∧ c ≠ '[' ∧ c ≠ ']' ∧ c ≠ '{' ∧ c ≠ '}' ∧ c ≠ '+' ∧
      c ≠ '|' ∧ c ≠ '^' ∧ c ≠ '$' ∧ c ≠ '\\' ∧ cleanGlob p = true := by
  unfold cleanGlob at h ⊢
  rw [List.all_cons, Bool.and_eq_true] at h
  obtain ⟨h1, h2⟩ := h
  simp only [Bool.not_eq_true', Bool.or_eq_false_iff, decide_eq_false_iff_not] at h1
  obtain ⟨⟨⟨⟨⟨⟨⟨⟨⟨⟨m1, m2⟩, m3⟩, m4⟩, m5⟩, m6⟩, m7⟩, m8⟩, m9⟩, m10⟩, m11⟩ := h1
  exact ⟨m1, m2, m3, m4, m5, m6, m7, m8, m9, m10, m11, h2⟩

/-- After a complete converted term of a clean glob, the rest of the
converted source (always ending in the closing anchor) neither starts a
quantifier nor a laziness marker. -/
theorem clean_tail_facts (p : Str) (hc : cleanGlob p = true) :
    quantStarts (regexSource p ++ ['$']) = false ∧
    skipLazy (regexSource p ++ ['$']) = regexSource p ++ ['$'] := by
  cases p with
  | nil =>
    rw [regexSource_nil, List.nil_append]
    exact ⟨by decide, by decide⟩
  | cons c p =>
    obtain ⟨n1, n2, n3, n4, n5, n6, n7, n8, n9, n10, n11, _⟩ := cleanGlob_cons c p hc
    rw [regexSource_cons]
    unfold charExp
    by_cases h1 : c = '.'
    · rw [if_pos h1]
      exact ⟨rfl, rfl⟩
    · rw [if_neg h1]
      by_cases h2 : c = '*'
      · rw [if_pos h2]
        exact ⟨rfl, rfl⟩
      · rw [if_neg h2]
        by_cases h3 : c = '?'
        · rw [if_pos h3]
          exact ⟨rfl, rfl⟩
        · rw [if_neg h3]
          constructor
          · show (if (c = '*' || c = '+' || c = '?') = true then true
              else if c = '{' then (parseBraced (regexSource p ++ ['$'])).isSome
              else false) = false
            rw [if_neg (by simp [h2, n7, h3]), if_neg n5]
          · show (if c = '?' then regexSource p ++ ['$']
              else c :: (regexSource p ++ ['$'])) = c :: regexSource p ++ ['$']
            rw [if_neg h3]
            simp

/-- A quantifier-free continuation leaves a parsed atom unrepeated. -/
theorem applyQuant_not_quant (a : JSRegex) (s : Str) (h : quantStarts s = false) :
    applyQuant a s = some (a, s) := by
  cases s with
  | nil => rfl
  | cons c rest =>
    have h0 : (if (c = '*' || c = '+' || c = '?') = true then true
        else if c = '{' then (parseBraced rest).isSome else false) = false := h
    by_cases e1 : c = '*'
    · rw [if_pos (by simp [e1])] at h0
      simp at h0
    · by_cases e2 : c = '+'
      · rw [if_pos (by simp [e2])] at h0
        simp at h0
      · by_cases e3 : c = '?'
        · rw [if_pos (by simp [e3])] at h0
          simp at h0
        · rw [if_neg (by simp [e1, e2, e3])] at h0
          simp only [applyQuant]
          rw [if_neg e1, if_neg e2, if_neg e3]
          by_cases e4 : c = '{'
          · subst e4
            rw [if_pos rfl] at h0 ⊢
            have hb : parseBraced rest = none := by
              cases hbb : parseBraced rest with
              | none => rfl
              | some x =>
                rw [hbb] at h0
                simp at h0
            simp [hb]
          · rw [if_neg e4]

/-- Parser step on a character that opens no special construct. -/
theorem parseLoop_cons_lit (f : Nat) (c : Char) (rest : Str)
    (terms alts : List JSRegex) (stack : List (List JSRegex × List JSRegex))
    (h1 : c ≠ '|') (h2 : c ≠ ')') (h3 : c ≠ '(') (h4 : c ≠ '^') (h5 : c ≠ '$') :
    parseLoop (f + 1) (c :: rest) terms alts stack =
      match parseAtomSimple (c :: rest) with
      | none => none
      | some (a, rest1) =>
        match applyQuant a rest1 with
        | none => none
        | some (a2, rest2) => parseLoop f rest2 (terms ++ [a2]) alts stack := by
  show (if c = '|' then parseLoop f rest [] (alts ++ [foldTerms terms]) stack
      else if c = ')' then
        match stack with
        | [] => none
        | (pt, pa) :: stk =>
          match applyQuant (finishDisj terms alts) rest with
          | none => none
          | some (g, rest2) => parseLoop f rest2 (pt ++ [g]) pa stk
      else if c = '(' then
        match parseGroupOpen rest with
        | none => none
        | some r2 => parseLoop f r2 [] [] ((terms, alts) :: stack)
      else if c = '^' then
        if quantStarts rest then none
        else parseLoop f rest (terms ++ [JSRegex.bol]) alts stack
      else if c = '$' then
        if quantStarts rest then none
        else parseLoop f rest (terms ++ [JSRegex.eol]) alts stack
      else
        match parseAtomSimple (c :: rest) with
        | none => none
        | some (a, rest1) =>
          match applyQuant a rest1 with
          | none => none
          | some (a2, rest2) => parseLoop f rest2 (terms ++ [a2]) alts stack) = _
  rw [if_neg h1, if_neg h2, if_neg h3, if_neg h4, if_neg h5]

/-- A plain literal character parses to itself. -/
theorem parseAtomSimple_lit (c : Char) (rest : Str)
    (h1 : c ≠ '\\') (h2 : c ≠ '.') (h3 : c ≠ '[') (h4 : c ≠ '*') (h5 : c ≠ '+')
    (h6 : c ≠ '?') (h7 : c ≠ '{') :
    parseAtomSimple (c :: rest) = some (.ch c, rest) := by
  simp only [parseAtomSimple]
  rw [if_neg h1, if_neg h2, if_neg h3, if_neg (by simp [h4, h5, h6]), if_neg h7]

/-- The parser loop on the converted clean glob followed by the closing
anchor appends exactly one term per glob character and then the anchor
term, whatever was parsed before. -/
theorem parseLoop_clean (p : Str) : ∀ (hc : cleanGlob p = true) (fuel : Nat)
    (hf : p.length + 2 ≤ fuel) (terms : List JSRegex),
    parseLoop fuel (regexSource p ++ ['$']) terms [] [] =
      some (foldTerms (terms ++ p.map termOf ++ [JSRegex.eol])) := by
  induction p with
  | nil =>
    intro _ fuel hf terms
    obtain ⟨f, rfl⟩ : ∃ f, fuel = f + 2 := ⟨fuel - 2, by omega⟩
    rw [regexSource_nil, List.nil_append]
    show (if quantStarts [] = true then none
        else parseLoop (f + 1) [] (terms ++ [JSRegex.eol]) [] []) = _
    rw [if_neg (by decide)]
    show some (finishDisj (terms ++ [JSRegex.eol]) []) = _
    unfold finishDisj altList
    simp
  | cons c p ih =>
    intro hc fuel hf terms
    obtain ⟨n1, n2, n3, n4, n5, n6, n7, n8, n9, n10, n11, hcp⟩ := cleanGlob_cons c p hc
    obtain ⟨f, rfl⟩ : ∃ f, fuel = f + 1 := ⟨fuel - 1, by omega⟩
    have hf' : p.length + 2 ≤ f := by
      simp only [List.length_cons] at hf
      omega
    have hq := (clean_tail_facts p hcp).1
    have hsl := (clean_tail_facts p hcp).2
    rw [regexSource_cons]
    unfold charExp
    by_cases h1 : c = '.'
    · subst h1
      rw [if_pos rfl]
      show (match applyQuant (JSRegex.ch '.') (regexSource p ++ ['$']) with
        | none => none
        | some (a2, rest2) => parseLoop f rest2 (terms ++ [a2]) [] []) = _
      rw [applyQuant_not_quant _ _ hq]
      show parseLoop f (regexSource p ++ ['$']) (terms ++ [JSRegex.ch '.']) [] [] = _
      rw [ih hcp f hf' (terms ++ [JSRegex.ch '.'])]
      simp [termOf]
    · rw [if_neg h1]
      by_cases h2 : c = '*'
      · subst h2
        rw [if_pos rfl]
        show parseLoop f (skipLazy (regexSource p ++ ['$']))
            (terms ++ [JSRegex.star JSRegex.dot]) [] [] = _
        rw [hsl, ih hcp f hf' (terms ++ [JSRegex.star JSRegex.dot])]
        simp [termOf]
      · rw [if_neg h2]
        by_cases h3 : c = '?'
        · subst h3
          rw [if_pos rfl]
          show (match applyQuant JSRegex.dot (regexSource p ++ ['$']) with
            | none => none
            | some (a2, rest2) => parseLoop f rest2 (terms ++ [a2]) [] []) = _
          rw [applyQuant_not_quant _ _ hq]
          show parseLoop f (regexSource p ++ ['$']) (terms ++ [JSRegex.dot]) [] [] = _
          rw [ih hcp f hf' (terms ++ [JSRegex.dot])]
          simp [termOf]
        · rw [if_neg h3]
          have hstep := parseLoop_cons_lit f c (regexSource p ++ ['$']) terms [] []
            n8 n2 n1 n9 n10
          have hatom := parseAtomSimple_lit c (regexSource p ++ ['$'])
            n11 h1 n3 h2 n7 h3 n5
          rw [List.singleton_append, List.cons_append, hstep, hatom]
          show (match applyQuant (JSRegex.ch c) (regexSource p ++ ['$']) with
            | none => none
            | some (a2, rest2) => parseLoop f rest2 (terms ++ [a2]) [] []) = _
          rw [applyQuant_not_quant _ _ hq]
          show parseLoop f (regexSource p ++ ['$']) (terms ++ [JSRegex.ch c]) [] [] = _
          rw [ih hcp f hf' (terms ++ [JSRegex.ch c])]
          have ht : termOf c = JSRegex.ch c := by
            unfold termOf
            rw [if_neg h2, if_neg h3]
          simp [ht]

/-- On a clean glob, compiling the anchored converted source succeeds
and yields exactly the term-by-term abstract regex. -/
theorem parseRegex_clean (p : Str) (hc : cleanGlob p = true) :
    parseRegex ('^' :: regexSource p ++ ['$']) = some (astOf p) := by
  unfold parseRegex
  have hq := (clean_tail_facts p hc).1
  have step : parseLoop (('^' :: regexSource p ++ ['$']).length + 1)
      ('^' :: regexSource p ++ ['$']) [] [] [] =
      (if quantStarts (regexSource p ++ ['$']) = true then none
       else parseLoop ('^' :: regexSource p ++ ['$']).length
         (regexSource p ++ ['$']) ([] ++ [JSRegex.bol]) [] []) := rfl
  rw [step, if_neg (by simp [hq])]
  have hlen : p.length + 2 ≤ ('^' :: regexSource p ++ ['$']).length := by
    have := regexSource_length p
    simp only [List.length_cons, List.length_append, List.length_singleton]
    omega
  rw [parseLoop_clean p hc _ hlen ([] ++ [JSRegex.bol])]
  unfold astOf
  simp

/-- Splitting line-terminator freedom over an append. -/
theorem noLineTerm_append (u w : Str) :
    noLineTerm (u ++ w) = true ↔ noLineTerm u = true ∧ noLineTerm w = true := by
  unfold noLineTerm
  rw [List.all_append, Bool.and_eq_true]

/-- Unpacking line-terminator freedom at a cons. -/
theorem noLineTerm_cons (d : Char) (w : Str) (h : noLineTerm (d :: w) = true) :
    isLineTerm d = false ∧ noLineTerm w = true := by
  unfold noLineTerm at h ⊢
  rw [List.all_cons, Bool.and_eq_true] at h
  exact ⟨by simpa using h.1, h.2⟩

/-- Nullability agrees with matching the empty string. -/
theorem nullAt_iff (r : JSRegex) : ∀ (bs be : Bool),
    nullAt bs be r = true ↔ RXLang r bs be [] := by
  induction r with
  | fail => intro bs be; simp [nullAt, RXLang]
  | eps => intro bs be; simp [nullAt, RXLang]
  | bol => intro bs be; simp [nullAt, RXLang]
  | eol => intro bs be; simp [nullAt, RXLang]
  | ch c => intro bs be; simp [nullAt, RXLang]
  | dot => intro bs be; simp [nullAt, RXLang]
  | cls neg rs => intro bs be; simp [nullAt, RXLang]
  | seq a b iha ihb =>
    intro bs be
    simp only [nullAt, Bool.and_eq_true, RXLang]
    rw [iha, ihb]
    constructor
    · rintro ⟨ha, hb⟩
      exact ⟨[], [], rfl, by simpa using ha, by simpa using hb⟩
    · rintro ⟨v1, v2, hv, ha, hb⟩
      obtain ⟨rfl, rfl⟩ := List.append_eq_nil.mp hv.symm
      exact ⟨by simpa using ha, by simpa using hb⟩
  | alt a b iha ihb =>
    intro bs be
    simp only [nullAt, Bool.or_eq_true, RXLang]
    rw [iha, ihb]
  | star a iha =>
    intro bs be
    simp only [nullAt, RXLang]
    constructor
    · intro _
      exact ⟨0, rfl⟩
    · intro _
      trivial

/-- The derivative consumes exactly one leading character. -/
theorem derivAt_iff (c : Char) (r : JSRegex) : ∀ (bs be : Bool) (v : Str),
    RXLang (derivAt bs r c) false be v ↔ RXLang r bs be (c :: v) := by
  induction r with
  | fail => intro bs be v; simp [derivAt, RXLang]
  | eps => intro bs be v; simp [derivAt, RXLang]
  | bol => intro bs be v; simp [derivAt, RXLang]
  | eol => intro bs be v; simp [derivAt, RXLang]
  | ch d =>
    intro bs be v
    simp only [derivAt]
    by_cases hd : d = c
    · subst hd
      rw [if_pos rfl]
      simp [RXLang]
    · rw [if_neg hd]
      simp only [RXLang]
      constructor
      · exact fun h => h.elim
      · intro h
        injection h with h1 h2
        exact absurd h1.symm hd
  | dot =>
    intro bs be v
    simp only [derivAt]
    by_cases hl : isLineTerm c = true
    · rw [if_pos hl]
      simp only [RXLang]
      constructor
      · exact fun h => h.elim
      · rintro ⟨d, hd, hlt⟩
        injection hd with h1 h2
        subst h1
        rw [hl] at hlt
        exact absurd hlt (by decide)
    · rw [if_neg hl]
      have hl2 : isLineTerm c = false := by
        cases hx : isLineTerm c
        · rfl
        · exact absurd hx hl
      simp only [RXLang]
      constructor
      · rintro rfl
        exact ⟨c, rfl, hl2⟩
      · rintro ⟨d, hd, hlt⟩
        injection hd with h1 h2
  | cls neg rs =>
    intro bs be v
    simp only [derivAt]
    by_cases hr : (inRanges c rs != neg) = true
    · rw [if_pos hr]
      simp only [RXLang]
      rw [bne_iff_ne] at hr
      constructor
      · intro h
        exact ⟨c, by rw [h], hr⟩
      · rintro ⟨d, hd, _⟩
        injection hd with h1 h2
    · rw [if_neg hr]
      simp only [RXLang]
      have hr2 : inRanges c rs = neg := by
        by_cases hx : inRanges c rs = neg
        · exact hx
        · exact absurd (bne_iff_ne.mpr hx) hr
      constructor
      · exact fun h => h.elim
      · rintro ⟨d, hd, hne⟩
        injection hd with h1 h2
        subst h1
        exact (hne hr2).elim
  | seq a b iha ihb =>
    intro bs be v
    simp only [derivAt]
    by_cases hn : nullAt bs false a = true
    · rw [if_pos hn]
      simp only [RXLang]
      constructor
      · rintro (⟨v1, v2, rfl, ha, hb⟩ | hb)
        · exact ⟨c :: v1, v2, rfl, (iha _ _ _).mp ha, by simpa using hb⟩
        · refine ⟨[], c :: v, rfl, ?_, ?_⟩
          · have := (nullAt_iff a bs false).mp hn
            simpa using this
          · have := (ihb bs be v).mp hb
            simpa using this
      · rintro ⟨v1, v2, hv, ha, hb⟩
        cases v1 with
        | nil =>
          right
          rw [List.nil_append] at hv
          subst hv
          have hb2 : RXLang b bs be (c :: v) := by simpa using hb
          exact (ihb bs be v).mpr hb2
        | cons d v1 =>
          left
          rw [List.cons_append] at hv
          injection hv with hcd hv2
          subst hcd
          subst hv2
          exact ⟨v1, v2, rfl, (iha _ _ _).mpr ha, by simpa using hb⟩
    · rw [if_neg hn]
      simp only [RXLang]
      constructor
      · rintro ⟨v1, v2, rfl, ha, hb⟩
        exact ⟨c :: v1, v2, rfl, (iha _ _ _).mp ha, by simpa using hb⟩
      · rintro ⟨v1, v2, hv, ha, hb⟩
        cases v1 with
        | nil =>
          rw [List.nil_append] at hv
          subst hv
          have ha2 : RXLang a bs false [] := by simpa using ha
          exact absurd ((nullAt_iff a bs false).mpr ha2) hn
        | cons d v1 =>
          rw [List.cons_append] at hv
          injection hv with hcd hv2
          subst hcd
          subst hv2
          exact ⟨v1, v2, rfl, (iha _ _ _).mpr ha, by simpa using hb⟩
  | alt a b iha ihb =>
    intro bs be v
    simp only [derivAt, RXLang]
    rw [iha bs be v, ihb bs be v]
  | star a iha =>
    intro bs be v
    simp only [derivAt]
    simp only [RXLang]
    constructor
    · rintro ⟨v1, v2, rfl, hd, hs⟩
      obtain ⟨n, hs⟩ := hs
      exact ⟨n + 1, c :: v1, v2, by simp, rfl, (iha _ _ _).mp hd, hs⟩
    · rintro ⟨n, hs⟩
      cases n with
      | zero => simp [starIter] at hs
      | succ n =>
        obtain ⟨v1, v2, hne, hv, hL, hiter⟩ := hs
        cases v1 with
        | nil => exact absurd rfl hne
        | cons d v1 =>
          rw [List.cons_append] at hv
          injection hv with hcd hv2
          subst hcd
          subst hv2
          exact ⟨v1, v2, rfl, (iha _ _ _).mpr hL, n, hiter⟩

/-- The derivative runner computes the semantics. -/
theorem rxRun_iff (v : Str) : ∀ (r : JSRegex) (bs be : Bool),
    rxRun r v bs be = true ↔ RXLang r bs be v := by
  induction v with
  | nil =>
    intro r bs be
    exact nullAt_iff r bs be
  | cons c cs ih =>
    intro r bs be
    rw [show rxRun r (c :: cs) bs be = rxRun (derivAt bs r c) cs false be from rfl]
    rw [ih (derivAt bs r c) false be]
    exact derivAt_iff c r bs be cs

/-- The starred wildcard matches exactly the terminator-free strings,
whatever the positional flags. -/
theorem star_dot_iff (w : Str) : ∀ (bs be : Bool),
    RXLang (JSRegex.star JSRegex.dot) bs be w ↔ noLineTerm w = true := by
  induction w with
  | nil =>
    intro bs be
    constructor
    · intro _
      rfl
    · intro _
      exact ⟨0, rfl⟩
  | cons c w ih =>
    intro bs be
    constructor
    · rintro ⟨n, hs⟩
      cases n with
      | zero => simp [starIter] at hs
      | succ n =>
        obtain ⟨v1, v2, hne, hv, hL, hiter⟩ := hs
        obtain ⟨d, hd, hlt⟩ := hL
        subst hd
        rw [List.singleton_append] at hv
        injection hv with h1 h2
        subst h1
        subst h2
        have hw : noLineTerm w = true := (ih false be).mp ⟨n, hiter⟩
        unfold noLineTerm at hw ⊢
        rw [List.all_cons, hlt]
        simpa using hw
    · intro h
      obtain ⟨h1, h2⟩ := noLineTerm_cons c w h
      obtain ⟨n, hiter⟩ := (ih false be).mpr h2
      exact ⟨n + 1, [c], w, by simp, rfl, ⟨c, rfl, h1⟩, hiter⟩

/-- Equations of the specification matcher at a plain character. -/
theorem specGlobMatch_lit (c : Char) (p : Str) (s : Str)
    (h1 : c ≠ '*') (h2 : c ≠ '?') :
    specGlobMatch (c :: p) s =
      match s with
      | [] => false
      | d :: s1 => c == d && specGlobMatch p s1 := by
  show (if c = '*' then (s.tails).any (fun t => specGlobMatch p t)
      else if c = '?' then
        match s with
        | [] => false
        | _ :: s1 => specGlobMatch p s1
      else
        match s with
        | [] => false
        | d :: s1 => c == d && specGlobMatch p s1) = _
  rw [if_neg h1, if_neg h2]

/-- The sequence of the converted terms and the closing anchor denotes
exactly the specification glob (on terminator-free strings), with the
end flag demanded by the anchor. -/
theorem foldTerms_sem (p : Str) : ∀ (v : Str) (bs be : Bool),
    noLineTerm v = true →
    (RXLang (foldTerms (p.map termOf ++ [JSRegex.eol])) bs be v ↔
      be = true ∧ specGlobMatch p v = true) := by
  induction p with
  | nil =>
    intro v bs be hv
    show RXLang (JSRegex.seq JSRegex.eol JSRegex.eps) bs be v ↔ _
    simp only [RXLang]
    constructor
    · rintro ⟨v1, v2, hv12, ⟨h1, hbe⟩, h2⟩
      subst h1
      subst h2
      refine ⟨by simpa using hbe, ?_⟩
      rw [hv12]
      rfl
    · rintro ⟨hbe, hsp⟩
      have hv0 : v = [] := by
        cases v with
        | nil => rfl
        | cons d w => simp [specGlobMatch] at hsp
      subst hv0
      exact ⟨[], [], rfl, ⟨rfl, by simp [hbe]⟩, rfl⟩
  | cons c p ih =>
    intro v bs be hv
    show RXLang (JSRegex.seq (termOf c)
        (foldTerms (p.map termOf ++ [JSRegex.eol]))) bs be v ↔ _
    by_cases h1 : c = '*'
    · subst h1
      show RXLang (JSRegex.seq (JSRegex.star JSRegex.dot)
          (foldTerms (p.map termOf ++ [JSRegex.eol]))) bs be v ↔ _
      simp only [RXLang]
      constructor
      · rintro ⟨v1, v2, rfl, hstar, hR⟩
        have hv2 : noLineTerm v2 = true := ((noLineTerm_append v1 v2).mp hv).2
        obtain ⟨hbe, hsp⟩ := (ih v2 (bs && v1.isEmpty) be hv2).mp hR
        refine ⟨hbe, ?_⟩
        show (((v1 ++ v2).tails).any fun t => specGlobMatch p t) = true
        rw [List.any_eq_true]
        exact ⟨v2, (List.mem_tails _ _).mpr ⟨v1, rfl⟩, hsp⟩
      · rintro ⟨hbe, hsp⟩
        have hsp2 : ((v.tails).any fun t => specGlobMatch p t) = true := hsp
        rw [List.any_eq_true] at hsp2
        obtain ⟨t, hmem, ht⟩ := hsp2
        obtain ⟨u, rfl⟩ := (List.mem_tails _ _).mp hmem
        have ht2 : noLineTerm t = true := ((noLineTerm_append u t).mp hv).2
        refine ⟨u, t, rfl, ?_, (ih t (bs && u.isEmpty) be ht2).mpr ⟨hbe, ht⟩⟩
        exact (star_dot_iff u bs (be && t.isEmpty)).mpr ((noLineTerm_append u t).mp hv).1
    · by_cases h2 : c = '?'
      · subst h2
        show RXLang (JSRegex.seq JSRegex.dot
            (foldTerms (p.map termOf ++ [JSRegex.eol]))) bs be v ↔ _
        simp only [RXLang]
        constructor
        · rintro ⟨v1, v2, rfl, hdot, hR⟩
          obtain ⟨d, rfl, hlt⟩ := hdot
          have hv2 : noLineTerm v2 = true := ((noLineTerm_append [d] v2).mp hv).2
          obtain ⟨hbe, hsp⟩ := (ih v2 _ be hv2).mp hR
          refine ⟨hbe, ?_⟩
          show specGlobMatch p v2 = true
          exact hsp
        · rintro ⟨hbe, hsp⟩
          cases v with
          | nil => exact absurd (show (false : Bool) = true from hsp) (by decide)
          | cons d w =>
            obtain ⟨hltd, hw⟩ := noLineTerm_cons d w hv
            have hsp2 : specGlobMatch p w = true := hsp
            exact ⟨[d], w, rfl, ⟨d, rfl, hltd⟩, (ih w _ be hw).mpr ⟨hbe, hsp2⟩⟩
      · have ht : termOf c = JSRegex.ch c := by
          unfold termOf
          rw [if_neg h1, if_neg h2]
        rw [ht]
        simp only [RXLang]
        constructor
        · rintro ⟨v1, v2, rfl, hch, hR⟩
          subst hch
          have hv2 : noLineTerm v2 = true := ((noLineTerm_append [c] v2).mp hv).2
          obtain ⟨hbe, hsp⟩ := (ih v2 _ be hv2).mp hR
          refine ⟨hbe, ?_⟩
          rw [specGlobMatch_lit c p _ h1 h2]
          show (c == c && specGlobMatch p v2) = true
          simp [hsp]
        · rintro ⟨hbe, hsp⟩
          rw [specGlobMatch_lit c p _ h1 h2] at hsp
          cases v with
          | nil => simp at hsp
          | cons d w =>
            have hsp2 : (c == d && specGlobMatch p w) = true := hsp
            rw [Bool.and_eq_true] at hsp2
            obtain ⟨hcd, hw⟩ := hsp2
            have hcd2 : c = d := eq_of_beq hcd
            subst hcd2
            have hwn : noLineTerm w = true := (noLineTerm_cons c w hv).2
            exact ⟨[c], w, rfl, rfl, (ih w _ be hwn).mpr ⟨hbe, hw⟩⟩

/-- The abstract regex of the whole converted glob denotes the
specification glob under both anchors. -/
theorem astOf_sem (p : Str) (v : Str) (bs be : Bool) (hv : noLineTerm v = true) :
    RXLang (astOf p) bs be v ↔
      bs = true ∧ be = true ∧ specGlobMatch p v = true := by
  show RXLang (JSRegex.seq JSRegex.bol
      (foldTerms (p.map termOf ++ [JSRegex.eol]))) bs be v ↔ _
  simp only [RXLang]
  constructor
  · rintro ⟨v1, v2, hv12, ⟨h1, hbs⟩, hR⟩
    subst h1
    rw [List.nil_append] at hv12
    subst hv12
    obtain ⟨hbe, hsp⟩ := (foldTerms_sem p v bs be hv).mp (by simpa using hR)
    exact ⟨hbs, hbe, hsp⟩
  · rintro ⟨hbs, hbe, hsp⟩
    refine ⟨[], v, rfl, ⟨rfl, hbs⟩, ?_⟩
    simpa using (foldTerms_sem p v bs be hv).mpr ⟨hbe, hsp⟩

/-- Membership in the prefix-suffix splits. -/
theorem splits_mem (s : Str) : ∀ pr : Str × Str, pr ∈ splits s ↔ pr.1 ++ pr.2 = s := by
  induction s with
  | nil =>
    intro pr
    cases pr with
    | mk a b =>
      show (a, b) ∈ [([], [])] ↔ a ++ b = []
      rw [List.mem_singleton, List.append_eq_nil]
      simp [Prod.ext_iff]
  | cons c cs ih =>
    intro pr
    cases pr with
    | mk a b =>
      show (a, b) ∈ ([], c :: cs) :: (splits cs).map (fun p => (c :: p.1, p.2)) ↔
        a ++ b = c :: cs
      rw [List.mem_cons, List.mem_map]
      constructor
      · rintro (h | ⟨q, hq, hmap⟩)
        · rw [Prod.mk.injEq] at h
          obtain ⟨rfl, rfl⟩ := h
          rfl
        · rw [Prod.mk.injEq] at hmap
          obtain ⟨h1, h2⟩ := hmap
          subst h1
          subst h2
          rw [List.cons_append, (ih q).mp hq]
      · intro h
        cases a with
        | nil =>
          left
          rw [List.nil_append] at h
          rw [Prod.mk.injEq]
          exact ⟨rfl, h⟩
        | cons d a1 =>
          right
          rw [List.cons_append] at h
          injection h with h1 h2
          subst h1
          exact ⟨(a1, b), (ih (a1, b)).mpr h2,
            by rw [Prod.mk.injEq]; exact ⟨rfl, rfl⟩⟩

/-- `test` succeeds exactly when some three-way split of the path has
its middle matched with truthful boundary flags. -/
theorem reTest_iff (r : JSRegex) (s : Str) :
    reTest r s = true ↔ ∃ u m w, u ++ (m ++ w) = s ∧
      rxRun r m u.isEmpty w.isEmpty = true := by
  unfold reTest
  rw [List.any_eq_true]
  constructor
  · rintro ⟨pr, hpr, hin⟩
    rw [List.any_eq_true] at hin
    obtain ⟨q, hq, hrun⟩ := hin
    refine ⟨pr.1, q.1, q.2, ?_, hrun⟩
    rw [(splits_mem pr.2 q).mp hq, (splits_mem s pr).mp hpr]
  · rintro ⟨u, m, w, hs, hrun⟩
    refine ⟨(u, m ++ w), (splits_mem s (u, m ++ w)).mpr hs, ?_⟩
    rw [List.any_eq_true]
    exact ⟨(m, w), (splits_mem (m ++ w) (m, w)).mpr rfl, hrun⟩

/-- On a terminator-free path, testing the compiled clean glob equals
the specification matcher: the anchors kill every split except the
whole path. -/
theorem reTest_astOf (p : Str) (path : Str) (hpath : noLineTerm path = true) :
    reTest (astOf p) path = specGlobMatch p path := by
  have key : reTest (astOf p) path = true ↔ specGlobMatch p path = true := by
    rw [reTest_iff]
    constructor
    · rintro ⟨u, m, w, hs, hrun⟩
      subst hs
      have hnm : noLineTerm m = true :=
        ((noLineTerm_append m w).mp ((noLineTerm_append u (m ++ w)).mp hpath).2).1
      have hm : RXLang (astOf p) u.isEmpty w.isEmpty m := (rxRun_iff m _ _ _).mp hrun
      obtain ⟨hbs, hbe, hsp⟩ := (astOf_sem p m u.isEmpty w.isEmpty hnm).mp hm
      have hu : u = [] := by
        cases u with
        | nil => rfl
        | cons x xs => simp at hbs
      have hw : w = [] := by
        cases w with
        | nil => rfl
        | cons x xs => simp at hbe
      subst hu
      subst hw
      simpa using hsp
    · intro hsp
      refine ⟨[], path, [], by simp, ?_⟩
      apply (rxRun_iff path _ _ _).mpr
      apply (astOf_sem p path _ _ hpath).mpr
      exact ⟨rfl, rfl, hsp⟩
  cases hb : specGlobMatch p path with
  | true => exact key.mpr hb
  | false =>
    cases hr : reTest (astOf p) path with
    | true =>
      rw [key.mp hr] at hb
      exact hb
    | false => rfl

/-- On a glob free of stray regex metacharacters and a path free of
line terminators, the code's conversion-compilation-test pipeline
computes exactly the specification's glob matcher. -/
theorem matchesPattern_clean_agrees :
    ∀ p path : Str, p ≠ [] → cleanGlob p = true → noLineTerm path = true →
      matchesPattern path (some p) = .ok (specGlobMatch p path) := by
  intro p path hne hc hpath
  have hemp : ¬(p.isEmpty = true) := by
    cases p with
    | nil => exact absurd rfl hne
    | cons a q => simp
  show (if p.isEmpty = true then Except.ok true
      else match parseRegex ('^' :: regexSource p ++ ['$']) with
        | none => Except.error invalidRegexError
        | some r => Except.ok (reTest r path)) = Except.ok (specGlobMatch p path)
  rw [if_neg hemp, parseRegex_clean p hc]
  show Except.ok (reTest (astOf p) path) = _
  rw [reTest_astOf p path hpath]

/-- C6 (amended): the filter is applied per directory — a directory
whose decoded path gets `false` from `matchesPattern` is skipped with
the accumulated state unchanged and its files never listed, while a
pattern on which `new RegExp` throws aborts the whole iteration with
that error; and on metacharacter-free globs and terminator-free paths
the code's regex pipeline agrees with the specification's glob reading
(`*` any sequence, `?` any single character, all else literal). -/
theorem project_filter_semantics :
    (∀ p path : Str, p ≠ [] → cleanGlob p = true → noLineTerm path = true →
        matchesPattern path (some p) = .ok (specGlobMatch p path)) ∧
    (∀ (fs : FS) (opts : ScanOptions) (acc : ScanState) (entry : DirEntry),
        matchesPattern (decodeProjectPath fs.existsSync entry.name) opts.projectFilter
            = .ok false →
        dirStep fs opts acc entry = .ok acc) ∧
    (∀ (fs : FS) (opts : ScanOptions) (acc : ScanState) (entry : DirEntry)
        (e : NodeError),
        entry.isDir = true →
        matchesPattern (decodeProjectPath fs.existsSync entry.name) opts.projectFilter
            = .error e →
        dirStep fs opts acc entry = .error e) ∧
    specGlobMatch ("/home/testuser/workspace/*".toList)
        ("/home/testuser/workspace/foo".toList) = true ∧
    specGlobMatch ("/home/testuser/workspace/*".toList)
        ("/home/testuser/workspace/bar".toList) = true ∧
    specGlobMatch ("/home/testuser/workspace/*".toList)
        ("/home/testuser/other/baz".toList) = false := by
  refine ⟨matchesPattern_clean_agrees, ?_, ?_, by decide, by decide, by decide⟩
  · intro fs opts acc entry h
    unfold dirStep
    cases hd : entry.isDir
    · simp
    · simp [h]
  · intro fs opts acc entry e hd h
    unfold dirStep
    simp [hd, h]

/-- Counterexample to C6 as claimed: the conversion leaves parentheses
unescaped, so they reach `new RegExp` as a capture group.  Under the
filter `/p(1)/*` the literally named project `/p(1)/x` is skipped and
the project `/p1/x` is retained — the exact opposite of the
specification's glob reading of the pattern. -/
theorem project_filter_metachar_cex :
    matchesPattern ("/p(1)/x".toList) (some "/p(1)/*".toList) = .ok false ∧
    specGlobMatch ("/p(1)/*".toList) ("/p(1)/x".toList) = true ∧
    matchesPattern ("/p1/x".toList) (some "/p(1)/*".toList) = .ok true ∧
    specGlobMatch ("/p(1)/*".toList) ("/p1/x".toList) = false ∧
    matchesPattern ([] : Str) (some "[".toList) = .error invalidRegexError :=
  ⟨rfl, by decide, rfl, by decide, rfl⟩

/-- Witness for the amended C6: on the workspace glob of the test suite
the pipeline agrees with the specification's reading, accepting
`/home/testuser/workspace/foo` and skipping (state unchanged) the
directory decoding to `/home/testuser/other/baz` even though listing it
would fail. -/
theorem project_filter_semantics_witness :
    matchesPattern ("/home/testuser/workspace/foo".toList)
        (some "/home/testuser/workspace/*".toList) =
      .ok (specGlobMatch ("/home/testuser/workspace/*".toList)
        ("/home/testuser/workspace/foo".toList)) ∧
    dirStep
      { home := "/home/testuser".toList,
        existsSync := fun _ => false,
        rootListing := .ok [],
        listDir := fun _ => .error ⟨"EACCES".toList, "permission denied".toList⟩,
        statFile := fun _ => .ok ⟨0, 0⟩ }
      { projectFilter := some "/home/testuser/workspace/*".toList }
      ⟨[], []⟩ ⟨"-home-testuser-other-baz".toList, true⟩ = .ok ⟨[], []⟩ := by
  have hagree := project_filter_semantics.1
    ("/home/testuser/workspace/*".toList)
    ("/home/testuser/workspace/foo".toList)
    (by decide) (by decide) (by decide)
  have hbaz := project_filter_semantics.1
    ("/home/testuser/workspace/*".toList)
    (decodeProjectPath (fun _ => false) ("-home-testuser-other-baz".toList))
    (by decide) (by decide) (by decide)
  refine ⟨hagree, project_filter_semantics.2.1 _ _ ⟨[], []⟩
    ⟨"-home-testuser-other-baz".toList, true⟩ ?_⟩
  rw [hbaz]
  have hfalse : specGlobMatch ("/home/testuser/workspace/*".toList)
      (decodeProjectPath (fun _ => false) ("-home-testuser-other-baz".toList)) = false := by
    decide
  rw [hfalse]

/-! ### Claim C3: tie-break order of the candidate enumeration -/

/-- C3: when the simple decode of `-home-user-my-project` does not exist
but the hyphenated directory `/home/user/my-project` does, the decoder
returns the hyphenated name as one component — whatever the filesystem
answers for every other candidate, because the depth-first enumeration
places the "new component" branch before the "merge with the previous
component" branch, so only the simple decode precedes this candidate. -/
theorem decode_tiebreak_hyphenated (fs : Str → Bool)
    (h1 : fs ("/home/user/my/project".toList) = false)
    (h2 : fs ("/home/user/my-project".toList) = true) :
    decodeProjectPath fs ("-home-user-my-project".toList) =
      "/home/user/my-project".toList := by
  have e0 : decodeProjectPath fs ("-home-user-my-project".toList) =
      (if fs ("/home/user/my/project".toList) then "/home/user/my/project".toList
       else
         match (generatePaths
             (splitOnChar '-' (("-home-user-my-project".toList).drop 1)) 0 []).find? fs with
         | some p => p
         | none => "/home/user/my/project".toList) := rfl
  have elist : generatePaths
      (splitOnChar '-' (("-home-user-my-project".toList).drop 1)) 0 [] =
      ["/home/user/my/project".toList, "/home/user/my-project".toList,
       "/home/user-my/project".toList, "/home/user-my-project".toList,
       "/home-user/my/project".toList, "/home-user/my-project".toList,
       "/home-user-my/project".toList, "/home-user-my-project".toList] := by decide
  rw [e0, if_neg (by rw [h1]; decide), elist, List.find?_cons_of_neg _ (by rw [h1]; decide),
    List.find?_cons_of_pos _ h2]

/-- Witness for C3 on a concrete filesystem oracle: only the hyphenated
path exists. -/
theorem decode_tiebreak_hyphenated_witness :
    decodeProjectPath (fun p => p == "/home/user/my-project".toList)
      ("-home-user-my-project".toList) = "/home/user/my-project".toList :=
  decode_tiebreak_hyphenated (fun p => p == "/home/user/my-project".toList)
    (by decide) (by decide)

/-! ### Claim C4: fallback to the simple decode -/

/-- Splitting on dashes never yields the empty list of groups. -/
theorem splitOnChar_ne_nil (sep : Char) (l : List Char) :
    splitOnChar sep l ≠ [] := by
  cases l with
  | nil => simp [splitOnChar]
  | cons c cs =>
    simp only [splitOnChar]
    by_cases hc : c = sep
    · simp [hc]
    · simp only [hc, if_false]
      cases splitOnChar sep cs with
      | nil => simp
      | cons g gs => simp

/-- Rejoining the dash-split of a string with slashes is the same as
replacing every dash by a slash; with the leading root separator this is
exactly the simple decode. -/
theorem slashJoin_splitOnChar (l : Str) :
    slashJoin (splitOnChar '-' l) = '/' :: l.map (fun c => if c = '-' then '/' else c) := by
  induction l with
  | nil => rfl
  | cons c cs ih =>
    by_cases hc : c = '-'
    · subst hc
      have hsplit : splitOnChar '-' ('-' :: cs) = [] :: splitOnChar '-' cs := by
        simp [splitOnChar]
      rw [hsplit]
      simp only [slashJoin, List.map_cons, List.flatten_cons] at ih ⊢
      rw [ih]
      simp
    · have hne : splitOnChar '-' (c :: cs) =
          match splitOnChar '-' cs with
          | [] => [[c]]
          | g :: gs => (c :: g) :: gs := by
        simp [splitOnChar, hc]
      rcases hr : splitOnChar '-' cs with - | ⟨g, gs⟩
      · exact absurd hr (splitOnChar_ne_nil '-' cs)
      · rw [hne, hr]
        rw [hr] at ih
        simp only [slashJoin, List.map_cons, List.flatten_cons, List.cons_append] at ih ⊢
        have ih2 : g ++ (List.map (fun p => '/' :: p) gs).flatten =
            cs.map (fun c => if c = '-' then '/' else c) := by
          injection ih
        simp [hc, ih2]

/-- The first candidate the enumeration pushes is the fully-split one:
the current path followed by every remaining segment as a new
component. -/
theorem generatePaths_head (parts : List Str) :
    ∀ (index : Nat) (currentPath : Str), ∃ t,
      generatePaths parts index currentPath = (currentPath ++ slashJoin parts) :: t := by
  induction parts with
  | nil =>
    intro index currentPath
    exact ⟨[], by simp [generatePaths, slashJoin]⟩
  | cons p rest ih =>
    intro index currentPath
    obtain ⟨t, ht⟩ := ih (index + 1) (currentPath ++ '/' :: p)
    simp only [generatePaths]
    rw [ht]
    have hAB : currentPath ++ '/' :: p ++ slashJoin rest =
        currentPath ++ slashJoin (p :: rest) := by
      simp [slashJoin, List.append_assoc]
    rw [List.cons_append, hAB]
    exact ⟨_, rfl⟩

/-- C4: whenever no generated candidate exists on the filesystem, the
decoder of a marker-prefixed name returns the full simple decode (strip
the leading marker, turn every remaining marker into a path separator,
prefix the root separator) — never a partial candidate. -/
theorem decode_fallback_simple (fsExists : Str → Bool) (dirName : Str)
    (hm : ['-'].isPrefixOf dirName = true)
    (hall : ∀ p ∈ generatePaths (splitOnChar '-' (dirName.drop 1)) 0 [], fsExists p = false) :
    decodeProjectPath fsExists dirName = simpleDecode dirName := by
  have hnone : (generatePaths (splitOnChar '-' (dirName.drop 1)) 0 []).find? fsExists
      = none := by
    rw [List.find?_eq_none]
    intro x hx
    simp [hall x hx]
  have hsimple : fsExists (simpleDecode dirName) = false := by
    obtain ⟨t, ht⟩ := generatePaths_head (splitOnChar '-' (dirName.drop 1)) 0 []
    apply hall
    rw [ht]
    have hs : simpleDecode dirName = [] ++ slashJoin (splitOnChar '-' (dirName.drop 1)) := by
      rw [List.nil_append, slashJoin_splitOnChar]
      rfl
    rw [hs]
    exact List.mem_cons_self _ _
  unfold decodeProjectPath
  rw [hm]
  simp only [Bool.not_true, Bool.false_eq_true, if_false]
  rw [if_neg (by rw [hsimple]; simp), hnone]

/-- Witness for C4 at the concrete encoded name of the test suite, with
a filesystem on which nothing exists. -/
theorem decode_fallback_simple_witness :
    decodeProjectPath (fun _ => false) ("-home-testuser-project1".toList) =
      "/home/testuser/project1".toList := by
  rw [decode_fallback_simple (fun _ => false) ("-home-testuser-project1".toList)
    (by decide) (fun p _ => rfl)]
  decide

/-! ### Claim C2: the aggregate invariants of every ScanResult -/

/-- Adding to the set keeps it duplicate-free. -/
theorem setAdd_nodup (l : List Str) (x : Str) (h : l.Nodup) : (setAdd l x).Nodup := by
  unfold setAdd
  by_cases hx : x ∈ l
  · simpa [hx] using h
  · simp [hx, List.nodup_append, h]

/-- Membership in the set after an add. -/
theorem setAdd_mem (l : List Str) (x y : Str) :
    y ∈ setAdd l x ↔ y ∈ l ∨ y = x := by
  unfold setAdd
  by_cases hx : x ∈ l
  · simp only [hx, if_pos]
    constructor
    · exact Or.inl
    · rintro (h | h)
      · exact h
      · exact h ▸ hx
  · simp [hx]

/-- One file-loop iteration preserves the accumulator invariant. -/
theorem fileStep_inv (fs : FS) (opts : ScanOptions)
    (pp pd fpp : Str) (acc : ScanState) (fn : Str) (s2 : ScanState)
    (hinv : StateInv acc) (h : fileStep fs opts pp pd fpp acc fn = .ok s2) :
    StateInv s2 := by
  have h1 : (if (fn == "sessions-index.json".toList ||
        !(".jsonl".toList.isSuffixOf fn)) = true
      then Except.ok acc
      else if (!uuidMatch (replaceFirst ".jsonl".toList fn)) = true then Except.ok acc
      else
        match fs.statFile (fpp ++ '/' :: fn) with
        | Except.error e => Except.error e
        | Except.ok fileStats =>
          if (match opts.minDate with
              | some d => decide (fileStats.mtime < d)
              | none => false) = true then Except.ok acc
          else Except.ok
            ⟨acc.transcripts ++
               [⟨pp, pd, replaceFirst ".jsonl".toList fn, fpp ++ '/' :: fn,
                 fileStats.size, fileStats.mtime⟩],
             setAdd acc.projectDirs pd⟩) = Except.ok s2 := h
  clear h
  by_cases c1 : (fn == "sessions-index.json".toList ||
      !(".jsonl".toList.isSuffixOf fn)) = true
  · rw [if_pos c1] at h1
    cases h1
    exact hinv
  · rw [if_neg c1] at h1
    by_cases c2 : (!uuidMatch (replaceFirst ".jsonl".toList fn)) = true
    · rw [if_pos c2] at h1
      cases h1
      exact hinv
    · rw [if_neg c2] at h1
      cases hst : fs.statFile (fpp ++ '/' :: fn) with
      | error e =>
        rw [hst] at h1
        have h2 : (Except.error e : Except NodeError ScanState) = .ok s2 := h1
        cases h2
      | ok fileStats =>
        rw [hst] at h1
        have h2 : (if (match opts.minDate with
              | some d => decide (fileStats.mtime < d)
              | none => false) = true then Except.ok acc
            else Except.ok
              (⟨acc.transcripts ++
                 [⟨pp, pd, replaceFirst ".jsonl".toList fn, fpp ++ '/' :: fn,
                   fileStats.size, fileStats.mtime⟩],
               setAdd acc.projectDirs pd⟩ : ScanState)) = Except.ok s2 := h1
        by_cases c3 : (match opts.minDate with
            | some d => decide (fileStats.mtime < d)
            | none => false) = true
        · rw [if_pos c3] at h2
          cases h2
          exact hinv
        · rw [if_neg c3] at h2
          cases h2
          refine ⟨setAdd_nodup _ _ hinv.1, ?_⟩
          intro x
          rw [setAdd_mem]
          simp only [List.map_append, List.map_cons, List.map_nil, List.mem_append,
            List.mem_singleton]
          rw [hinv.2 x]

/-- A fold of `Except`-valued steps preserves any property each single
step preserves. -/
theorem foldlM_inv {α : Type} (step : ScanState → α → Except NodeError ScanState)
    (P : ScanState → Prop)
    (hstep : ∀ s a s2, P s → step s a = .ok s2 → P s2) :
    ∀ (l : List α) (s s2 : ScanState), P s → l.foldlM step s = .ok s2 → P s2 := by
  intro l
  induction l with
  | nil =>
    intro s s2 hP h
    have hh : (Except.ok s : Except NodeError ScanState) = .ok s2 := h
    cases hh
    exact hP
  | cons a l ih =>
    intro s s2 hP h
    rw [List.foldlM_cons] at h
    cases hfa : step s a with
    | error e =>
      rw [hfa] at h
      have hh : (Except.error e : Except NodeError ScanState) = .ok s2 := h
      cases hh
    | ok s1 =>
      rw [hfa] at h
      exact ih s1 s2 (hstep s a s1 hP hfa) h

/-- One directory-loop iteration preserves the accumulator invariant. -/
theorem dirStep_inv (fs : FS) (opts : ScanOptions)
    (s : ScanState) (entry : DirEntry) (s2 : ScanState)
    (hinv : StateInv s) (h : dirStep fs opts s entry = .ok s2) : StateInv s2 := by
  have h1 : (if (!entry.isDir) = true then Except.ok s
      else
        match matchesPattern (decodeProjectPath fs.existsSync entry.name)
            opts.projectFilter with
        | Except.error e => Except.error e
        | Except.ok matched =>
          if (!matched) = true then Except.ok s
          else
            match fs.listDir (projectsDirOf fs.home ++ '/' :: entry.name) with
            | Except.error e => Except.error e
            | Except.ok projectFiles =>
              List.foldlM
                (fileStep fs opts (decodeProjectPath fs.existsSync entry.name)
                  entry.name (projectsDirOf fs.home ++ '/' :: entry.name))
                s projectFiles) = Except.ok s2 := h
  clear h
  by_cases c1 : (!entry.isDir) = true
  · rw [if_pos c1] at h1
    cases h1
    exact hinv
  · rw [if_neg c1] at h1
    cases hm : matchesPattern (decodeProjectPath fs.existsSync entry.name)
        opts.projectFilter with
    | error e =>
      rw [hm] at h1
      have h2 : (Except.error e : Except NodeError ScanState) = .ok s2 := h1
      cases h2
    | ok matched =>
      rw [hm] at h1
      have h2 : (if (!matched) = true then Except.ok s
          else
            match fs.listDir (projectsDirOf fs.home ++ '/' :: entry.name) with
            | Except.error e => Except.error e
            | Except.ok projectFiles =>
              List.foldlM
                (fileStep fs opts (decodeProjectPath fs.existsSync entry.name)
                  entry.name (projectsDirOf fs.home ++ '/' :: entry.name))
                s projectFiles) = Except.ok s2 := h1
      clear h1
      by_cases c2 : (!matched) = true
      · rw [if_pos c2] at h2
        cases h2
        exact hinv
      · rw [if_neg c2] at h2
        cases hlist : fs.listDir (projectsDirOf fs.home ++ '/' :: entry.name) with
        | error e =>
          rw [hlist] at h2
          have h3 : (Except.error e : Except NodeError ScanState) = .ok s2 := h2
          cases h3
        | ok projectFiles =>
          rw [hlist] at h2
          have h3 : List.foldlM
              (fileStep fs opts (decodeProjectPath fs.existsSync entry.name)
                entry.name (projectsDirOf fs.home ++ '/' :: entry.name))
              s projectFiles = Except.ok s2 := h2
          exact foldlM_inv _ StateInv
            (fun s a s2 hP hh => fileStep_inv fs opts _ _ _ s a s2 hP hh)
            projectFiles s s2 hinv h3

/-- Folding the size addition equals adding the sum of the mapped
sizes. -/
theorem foldl_size (ts : List TranscriptFile) :
    ∀ n : Nat, ts.foldl (fun sum t => sum + t.fileSize) n =
      n + (ts.map (fun t => t.fileSize)).sum := by
  induction ts with
  | nil => intro n; simp
  | cons t ts ih => intro n; simp [List.foldl_cons, ih, Nat.add_assoc]

/-- C2: every successfully returned `ScanResult` satisfies both
aggregate invariants — `totalSize` is the sum of the `fileSize` fields of
its transcripts, and `projectCount` is the number of distinct
`projectDir` values among them (a directory contributing no transcript is
not counted, since only contributing directories enter the set). -/
theorem scan_result_invariants (fs : FS) (opts : ScanOptions) (r : ScanResult)
    (h : scanTranscripts fs opts = .ok r) :
    r.totalSize = (r.transcripts.map (fun t => t.fileSize)).sum ∧
    r.projectCount = (r.transcripts.map (fun t => t.projectDir)).toFinset.card := by
  cases hroot : fs.rootListing with
  | error e =>
    have key : scanTranscripts fs opts =
        (if e.code == "ENOENT".toList then .ok ⟨[], 0, 0⟩ else .error e) := by
      unfold scanTranscripts
      rw [hroot]
    rw [key] at h
    by_cases hc : (e.code == "ENOENT".toList) = true
    · rw [if_pos hc] at h
      cases h
      constructor <;> simp
    · rw [if_neg hc] at h
      exact Except.noConfusion h
  | ok entries =>
    rw [scan_root_ok fs opts entries hroot] at h
    cases hfold : entries.foldlM (dirStep fs opts) ⟨[], []⟩ with
    | error e =>
      rw [hfold] at h
      have h2 : (if (e.code == "ENOENT".toList) = true
          then Except.ok (⟨[], 0, 0⟩ : ScanResult) else Except.error e) = Except.ok r := h
      by_cases hc : (e.code == "ENOENT".toList) = true
      · rw [if_pos hc] at h2
        cases h2
        constructor <;> simp
      · rw [if_neg hc] at h2
        exact Except.noConfusion h2
    | ok s =>
      rw [hfold] at h
      have h2 : Except.ok (⟨s.transcripts,
          s.transcripts.foldl (fun sum t => sum + t.fileSize) 0,
          s.projectDirs.length⟩ : ScanResult) = Except.ok r := h
      cases h2
      have hinv : StateInv s :=
        foldlM_inv _ StateInv
          (fun s a s2 hP hh => dirStep_inv fs opts s a s2 hP hh)
          entries ⟨[], []⟩ s ⟨List.nodup_nil, by simp⟩ hfold
      constructor
      · simpa using foldl_size s.transcripts 0
      · have hext : s.projectDirs.toFinset =
            (s.transcripts.map (fun t => t.projectDir)).toFinset := by
          ext x
          simp only [List.mem_toFinset]
          exact hinv.2 x
        have hlen : s.projectDirs.toFinset.card = s.projectDirs.length :=
          List.toFinset_card_of_nodup hinv.1
        simp only []
        rw [← hlen, hext]

/-- Witness for C2 on the concrete two-project scan. -/
theorem scan_result_invariants_witness :
    demoResult.totalSize = (demoResult.transcripts.map (fun t => t.fileSize)).sum ∧
    demoResult.projectCount =
      (demoResult.transcripts.map (fun t => t.projectDir)).toFinset.card :=
  scan_result_invariants demoFS {} demoResult rfl

/-! ### Claim C7: strictness of the minDate filter -/

/-- C7: for a file that passes the name checks and whose stat succeeds,
the date filter excludes it exactly when its modification time is
strictly earlier than `minDate`; at a modification time equal to or later
than the bound the record is emitted. -/
theorem min_date_strict (fs : FS) (pf : Option Str) (d : Int)
    (pp pd fpp : Str) (acc : ScanState) (fn : Str) (st : FileStat)
    (hstat : fs.statFile (fpp ++ '/' :: fn) = .ok st)
    (hidx : fn ≠ "sessions-index.json".toList)
    (hext : ".jsonl".toList.isSuffixOf fn = true)
    (huuid : uuidMatch (replaceFirst ".jsonl".toList fn) = true) :
    fileStep fs ⟨pf, some d⟩ pp pd fpp acc fn =
      .ok (if st.mtime < d then acc
           else ⟨acc.transcripts ++
                   [⟨pp, pd, replaceFirst ".jsonl".toList fn, fpp ++ '/' :: fn,
                     st.size, st.mtime⟩],
                 setAdd acc.projectDirs pd⟩) := by
  have hb1 : (fn == "sessions-index.json".toList) = false := by
    cases hfb : fn == "sessions-index.json".toList
    · rfl
    · exact absurd (eq_of_beq hfb) hidx
  have hc1 : (fn == "sessions-index.json".toList ||
      !(".jsonl".toList.isSuffixOf fn)) = false := by
    rw [hb1, hext]
    rfl
  have hc2 : (!uuidMatch (replaceFirst ".jsonl".toList fn)) = false := by
    rw [huuid]
    rfl
  calc fileStep fs ⟨pf, some d⟩ pp pd fpp acc fn
      = (if (fn == "sessions-index.json".toList ||
            !(".jsonl".toList.isSuffixOf fn)) = true
        then Except.ok acc
        else if (!uuidMatch (replaceFirst ".jsonl".toList fn)) = true then Except.ok acc
        else
          match fs.statFile (fpp ++ '/' :: fn) with
          | Except.error e => Except.error e
          | Except.ok fileStats =>
            if (decide (fileStats.mtime < d)) = true then Except.ok acc
            else Except.ok
              ⟨acc.transcripts ++
                 [⟨pp, pd, replaceFirst ".jsonl".toList fn, fpp ++ '/' :: fn,
                   fileStats.size, fileStats.mtime⟩],
               setAdd acc.projectDirs pd⟩) := rfl
    _ = (if (decide (st.mtime < d)) = true then Except.ok acc
        else Except.ok
          ⟨acc.transcripts ++
             [⟨pp, pd, replaceFirst ".jsonl".toList fn, fpp ++ '/' :: fn,
               st.size, st.mtime⟩],
           setAdd acc.projectDirs pd⟩) := by
        simp only [hc1, hc2, Bool.false_eq_true, if_false]
        rw [hstat]
    _ = .ok (if st.mtime < d then acc
           else ⟨acc.transcripts ++
                   [⟨pp, pd, replaceFirst ".jsonl".toList fn, fpp ++ '/' :: fn,
                     st.size, st.mtime⟩],
                 setAdd acc.projectDirs pd⟩) := by
        by_cases hd : st.mtime < d
        · rw [if_pos (by simpa using hd), if_pos hd]
        · rw [if_neg (by simpa using hd), if_neg hd]

/-- Witness for C7 at the boundary: modification time exactly equal to
the bound, which the strict comparison keeps. -/
theorem min_date_strict_witness :
    fileStep demoFS ⟨none, some 100⟩ ("/home/testuser/project1".toList)
      ("-home-testuser-project1".toList)
      ("/home/testuser/.claude/projects/-home-testuser-project1".toList) ⟨[], []⟩
      ("a1b2c3d4-e5f6-7890-abcd-ef1234567890.jsonl".toList) =
      .ok (if (100 : Int) < 100 then ⟨[], []⟩
           else ⟨[⟨"/home/testuser/project1".toList, "-home-testuser-project1".toList,
                   replaceFirst ".jsonl".toList
                     ("a1b2c3d4-e5f6-7890-abcd-ef1234567890.jsonl".toList),
                   "/home/testuser/.claude/projects/-home-testuser-project1".toList ++
                     '/' :: "a1b2c3d4-e5f6-7890-abcd-ef1234567890.jsonl".toList,
                   1024, 100⟩],
                 setAdd [] ("-home-testuser-project1".toList)⟩) :=
  min_date_strict demoFS none 100 ("/home/testuser/project1".toList)
    ("-home-testuser-project1".toList)
    ("/home/testuser/.claude/projects/-home-testuser-project1".toList) ⟨[], []⟩
    ("a1b2c3d4-e5f6-7890-abcd-ef1234567890.jsonl".toList) ⟨1024, 100⟩
    rfl (by decide) (by decide) (by decide)

/-! ### Claim C5: which filenames yield a record -/

/-- Rejoining a dash-split with the same separator restores the
string. -/
theorem intercalateChar_splitOnChar (sep : Char) (l : List Char) :
    intercalateChar sep (splitOnChar sep l) = l := by
  induction l with
  | nil => rfl
  | cons c cs ih =>
    by_cases hc : c = sep
    · have hsplit : splitOnChar sep (c :: cs) = [] :: splitOnChar sep cs := by
        simp [splitOnChar, hc]
      rw [hsplit]
      rcases hr : splitOnChar sep cs with - | ⟨g, gs⟩
      · exact absurd hr (splitOnChar_ne_nil sep cs)
      · rw [hr] at ih
        show [] ++ sep :: intercalateChar sep (g :: gs) = c :: cs
        rw [List.nil_append, ih, hc]
    · have hne : splitOnChar sep (c :: cs) =
          match splitOnChar sep cs with
          | [] => [[c]]
          | g :: gs => (c :: g) :: gs := by
        simp [splitOnChar, hc]
      rcases hr : splitOnChar sep cs with - | ⟨g, gs⟩
      · exact absurd hr (splitOnChar_ne_nil sep cs)
      · rw [hne, hr]
        rw [hr] at ih
        cases gs with
        | nil =>
          have hg : g = cs := ih
          show c :: g = c :: cs
          rw [hg]
        | cons g2 gs2 =>
          have ih2 : g ++ sep :: intercalateChar sep (g2 :: gs2) = cs := ih
          show (c :: g) ++ sep :: intercalateChar sep (g2 :: gs2) = c :: cs
          rw [List.cons_append, ih2]

/-- A string accepted by the UUID regex consists of hex digits and
dashes only; in particular it contains no dot. -/
theorem uuidMatch_no_dot (s : Str) (h : uuidMatch s = true) : '.' ∉ s := by
  intro hmem
  have hjoin := intercalateChar_splitOnChar '-' s
  unfold uuidMatch at h
  rcases hsp : splitOnChar '-' s with - | ⟨g1, - | ⟨g2, - | ⟨g3, - | ⟨g4, - |
      ⟨g5, - | ⟨g6, rest⟩⟩⟩⟩⟩⟩ <;> rw [hsp] at h hjoin
  · exact Bool.noConfusion h
  · exact Bool.noConfusion h
  · exact Bool.noConfusion h
  · exact Bool.noConfusion h
  · exact Bool.noConfusion h
  · have h5 : (g1.length == 8 && g2.length == 4 && g3.length == 4 && g4.length == 4 &&
        g5.length == 12 &&
        (g1 ++ g2 ++ g3 ++ g4 ++ g5).all isHexDigit) = true := h
    have hall : (g1 ++ g2 ++ g3 ++ g4 ++ g5).all isHexDigit = true := by
      simp only [Bool.and_eq_true] at h5
      exact h5.2
    have hs2 : s = g1 ++ '-' :: (g2 ++ '-' :: (g3 ++ '-' :: (g4 ++ '-' :: g5))) := by
      rw [← hjoin]
      rfl
    rw [hs2] at hmem
    have hhex := List.all_eq_true.mp hall
    simp only [List.mem_append, List.mem_cons] at hmem
    rcases hmem with h1 | h1 | h1 | h1 | h1 | h1 | h1 | h1 | h1
    · exact absurd (hhex '.' (by simp [h1])) (by decide)
    · exact absurd h1 (by decide)
    · exact absurd (hhex '.' (by simp [h1])) (by decide)
    · exact absurd h1 (by decide)
    · exact absurd (hhex '.' (by simp [h1])) (by decide)
    · exact absurd h1 (by decide)
    · exact absurd (hhex '.' (by simp [h1])) (by decide)
    · exact absurd h1 (by decide)
    · exact absurd (hhex '.' (by simp [h1])) (by decide)
  · exact Bool.noConfusion h

/-- If removing the first occurrence of `.jsonl` from a string of the
form `e ++ ".jsonl"` leaves a string without any dot, then the occurrence
removed was exactly the final extension, so the result is `e`.  (An
earlier occurrence would leave the final `.jsonl`, hence a dot, in the
result.) -/
theorem replaceFirst_ext : ∀ e : Str,
    '.' ∉ replaceFirst (".jsonl".toList) (e ++ ".jsonl".toList) →
    replaceFirst (".jsonl".toList) (e ++ ".jsonl".toList) = e := by
  intro e
  induction e with
  | nil =>
    intro _
    decide
  | cons c e' ih =>
    intro hnd
    rw [List.cons_append] at hnd ⊢
    have hunf : replaceFirst (".jsonl".toList) (c :: (e' ++ ".jsonl".toList)) =
        if (".jsonl".toList).isPrefixOf (c :: (e' ++ ".jsonl".toList)) then
          (c :: (e' ++ ".jsonl".toList)).drop (".jsonl".toList).length
        else c :: replaceFirst (".jsonl".toList) (e' ++ ".jsonl".toList) := rfl
    by_cases hp : (".jsonl".toList).isPrefixOf (c :: (e' ++ ".jsonl".toList)) = true
    · rw [hunf, if_pos hp] at hnd ⊢
      exfalso
      by_cases hlen : 5 ≤ e'.length
      · apply hnd
        have hform : (c :: (e' ++ ".jsonl".toList)).drop (".jsonl".toList).length =
            (c :: e').drop 6 ++ ".jsonl".toList := by
          rw [show (".jsonl".toList).length = 6 from rfl, ← List.cons_append,
            List.drop_append_eq_append_drop,
            show ((6 : Nat) - (c :: e').length) = 0 from by simp; omega, List.drop_zero]
        rw [hform]
        exact List.mem_append_right _ (by decide)
      · have hpre := ( List.isPrefixOf_iff_prefix).mp hp
        obtain ⟨t, ht⟩ := hpre
        rw [← List.cons_append] at ht
        have htake := congrArg (List.take 6) ht
        rw [List.take_append_eq_append_take, List.take_append_eq_append_take,
          show List.take 6 (".jsonl".toList) = ".jsonl".toList from rfl,
          show ((6 : Nat) - (".jsonl".toList).length) = 0 from rfl, List.take_zero,
          List.append_nil,
          List.take_of_length_le (l := c :: e') (by simp; omega)] at htake
        have hm := congrArg (List.take (c :: e').length) htake
        rw [List.take_append_eq_append_take, List.take_length, Nat.sub_self,
          List.take_zero, List.append_nil] at hm
        rw [← hm] at htake
        have hsmall : e'.length = 0 ∨ e'.length = 1 ∨ e'.length = 2 ∨
            e'.length = 3 ∨ e'.length = 4 := by omega
        rw [List.length_cons] at htake
        rcases hsmall with h0 | h0 | h0 | h0 | h0 <;> rw [h0] at htake <;>
          exact absurd htake (by decide)
    · rw [hunf, if_neg hp] at hnd ⊢
      have hnd2 : '.' ∉ replaceFirst (".jsonl".toList) (e' ++ ".jsonl".toList) :=
        fun hm => hnd (List.mem_cons_of_mem _ hm)
      rw [ih hnd2]

/-- For a filename that ends in the transcript extension, the session id
the code computes (first-occurrence replacement) agrees with the
specification's "name with the extension stripped" whenever the UUID test
accepts it. -/
theorem sessionId_strip (fn : Str)
    (hext : (".jsonl".toList).isSuffixOf fn = true)
    (huuid : uuidMatch (replaceFirst (".jsonl".toList) fn) = true) :
    replaceFirst (".jsonl".toList) fn = fn.take (fn.length - 6) := by
  obtain ⟨e, he⟩ : ∃ e, fn = e ++ ".jsonl".toList := by
    obtain ⟨t, ht⟩ := List.isSuffixOf_iff_suffix.mp hext
    exact ⟨t, ht.symm⟩
  subst he
  have hnd : '.' ∉ replaceFirst (".jsonl".toList) (e ++ ".jsonl".toList) :=
    uuidMatch_no_dot _ huuid
  rw [replaceFirst_ext e hnd, List.length_append,
    show (".jsonl".toList).length = 6 from rfl, Nat.add_sub_cancel,
    List.take_left]

/-- C5: a filename that is the reserved index file, or does not end in
`.jsonl`, or whose name with the extension stripped is not a canonical
lowercase UUID, is silently skipped: the file loop leaves the
accumulators unchanged and raises no error, so no record can arise from
it. -/
theorem file_name_conditions (fs : FS) (opts : ScanOptions)
    (pp pd fpp : Str) (acc : ScanState) (fn : Str)
    (h : fn = "sessions-index.json".toList ∨
         (".jsonl".toList).isSuffixOf fn = false ∨
         uuidMatch (fn.take (fn.length - 6)) = false) :
    fileStep fs opts pp pd fpp acc fn = .ok acc := by
  have key : fileStep fs opts pp pd fpp acc fn =
      (if (fn == "sessions-index.json".toList ||
          !(".jsonl".toList.isSuffixOf fn)) = true
        then Except.ok acc
        else if (!uuidMatch (replaceFirst ".jsonl".toList fn)) = true then Except.ok acc
        else
          match fs.statFile (fpp ++ '/' :: fn) with
          | Except.error e => Except.error e
          | Except.ok fileStats =>
            if (match opts.minDate with
                | some d => decide (fileStats.mtime < d)
                | none => false) = true then Except.ok acc
            else Except.ok
              ⟨acc.transcripts ++
                 [⟨pp, pd, replaceFirst ".jsonl".toList fn, fpp ++ '/' :: fn,
                   fileStats.size, fileStats.mtime⟩],
               setAdd acc.projectDirs pd⟩) := rfl
  rcases h with h | h | h
  · rw [key, if_pos (by rw [h]; decide)]
  · rw [key, if_pos (by rw [h]; simp)]
  · by_cases c1 : (fn == "sessions-index.json".toList ||
        !(".jsonl".toList.isSuffixOf fn)) = true
    · rw [key, if_pos c1]
    · rw [key, if_neg c1]
      have hext : (".jsonl".toList).isSuffixOf fn = true := by
        cases hsx : (".jsonl".toList).isSuffixOf fn
        · exact absurd (by rw [hsx]; simp) c1
        · rfl
      have hu : uuidMatch (replaceFirst (".jsonl".toList) fn) = false := by
        cases hv : uuidMatch (replaceFirst (".jsonl".toList) fn)
        · rfl
        · exfalso
          have hs := sessionId_strip fn hext hv
          rw [hs] at hv
          rw [hv] at h
          exact Bool.noConfusion h
      rw [if_pos (by rw [hu]; rfl)]

/-- Witness for C5: an almost-UUID filename with the right extension is
skipped without touching the accumulators. -/
theorem file_name_conditions_witness :
    fileStep demoFS {} ("/home/testuser/project1".toList)
      ("-home-testuser-project1".toList)
      ("/home/testuser/.claude/projects/-home-testuser-project1".toList)
      ⟨[], []⟩ ("invalid-session-id.jsonl".toList) = .ok ⟨[], []⟩ :=
  file_name_conditions demoFS {} ("/home/testuser/project1".toList)
    ("-home-testuser-project1".toList)
    ("/home/testuser/.claude/projects/-home-testuser-project1".toList)
    ⟨[], []⟩ ("invalid-session-id.jsonl".toList)
    (Or.inr (Or.inr (by decide)))
